import Mathlib

/-!
Shallow embedding of the TopoGenie MCTS core (`src/topogenie/euler_mcts.py`,
`src/vocab_and_adjacency.py`, `src/netlist_io.py`).

Modelling conventions:
* Python `float` values are modelled as `ℚ` (the code only adds, multiplies and
  divides small decimal literals, so exact rationals track the intent of the
  arithmetic; `math.sqrt`, a transcendental library primitive applied to the
  integer `total_N`, is modelled as an explicit function parameter `sqrtN`).
* Python `dict`s are modelled as insertion-ordered association lists
  (`List (key × value)`); Python dicts preserve insertion order, assignment to
  an existing key keeps its position, and assignment to a new key appends.
* Python `set`s (`visited_edges`, `used_device_roots`) are duplicate-free
  lists; their iteration order is only observed through `sorted(...)`.
* In-place mutation is modelled by returning the updated value; `EulerState.apply`
  first copies the state (`euler_mcts.py` line 52), so it is a pure function.
-/

namespace TopoGenie

/-- First-match lookup in an insertion-ordered association list
(Python `d.get(k)` / `k in d`). -/
def alookup {β : Type} : List (String × β) → String → Option β
  | [], _ => none
  | (k', v) :: rest, k => if k' = k then some v else alookup rest k

/-- Python `d[k] = v`: replace the value at the first occurrence of `k`,
keeping its position, or append a fresh entry. -/
def aupdate {β : Type} : List (String × β) → String → β → List (String × β)
  | [], k, v => [(k, v)]
  | (k', v') :: rest, k, v =>
      if k' = k then (k, v) :: rest else (k', v') :: aupdate rest k v

/-! ### Kernel-reducible string and set primitives

Python's `str.startswith`, `"_" in pin`, `pin.split`, `sorted(...)` and `set`
operations are library primitives; they are modelled here by structurally
recursive functions (the core library's variants use well-founded recursion,
which the kernel cannot evaluate, so witnesses could not be checked with them).
-/

/-- Python `s.startswith(pre)`. -/
def pyStartsWith (s pre : String) : Bool := pre.data.isPrefixOf s.data

/-- Lexicographic `<` on code-point sequences (Python string comparison). -/
def charListLt : List Char → List Char → Bool
  | [], [] => false
  | [], _ :: _ => true
  | _ :: _, [] => false
  | c :: cs, d :: ds =>
      if c.toNat < d.toNat then true
      else if d.toNat < c.toNat then false
      else charListLt cs ds

/-- Python `a < b` on strings. -/
def pyStrLt (a b : String) : Bool := charListLt a.data b.data

/-- Python `a <= b` on strings (`≤` is `¬ >` for this total order). -/
def pyStrLe (a b : String) : Bool := !pyStrLt b a

/-- Python `"_" in pin` (substring containment of a single character). -/
def pyContainsUnderscore (s : String) : Bool := s.data.contains '_'

/-- Python `s[n:]` — drop the first `n` characters. -/
def pyDrop (s : String) (n : Nat) : String := ⟨s.data.drop n⟩

/-- Python `pin.split("_", 1)[0]` — the characters before the first `'_'`. -/
def pyBeforeUnderscore (s : String) : String := ⟨s.data.takeWhile (· ≠ '_')⟩

/-- Insert into a list-modelled Python `set` (no-op when already present;
fresh elements are appended). -/
def setInsert {α : Type} [DecidableEq α] (x : α) (s : List α) : List α :=
  if x ∈ s then s else s ++ [x]

/-- Ordered insertion used by `insertionSort`. -/
def insertLE {α : Type} (le : α → α → Bool) (x : α) : List α → List α
  | [] => [x]
  | y :: ys => if le x y then x :: y :: ys else y :: insertLE le x ys

/-- Python `sorted(...)`, modelled as a structural insertion sort (the inputs
sorted by the code are sets, so stability is irrelevant). -/
def insertionSort {α : Type} (le : α → α → Bool) : List α → List α
  | [] => []
  | x :: xs => insertLE le x (insertionSort le xs)

/-! ## `vocab_and_adjacency.py` -/

/-- `SPECIAL_TOKENS = ["VDD", "VSS", "END"]`. -/
def SPECIAL_TOKENS : List String := ["VDD", "VSS", "END"]

/-- `_append_family(devs, prefix, count, pins)` (lines 30-35): for each index
`1..count` emit the device token and then its pin tokens. -/
def appendFamilyTokens (pre : String) (count : Nat) (pins : List String) : List String :=
  (List.range count).flatMap fun i =>
    let base := pre ++ toString (i + 1)
    base :: pins.map fun p => base ++ "_" ++ p

/-- `build_tokens()` (lines 37-65): MOSFETs, BJTs, passives, logic blocks,
then the special tokens. -/
def TOKENS : List String :=
  appendFamilyTokens "PM" 34 ["D", "G", "S", "B"] ++
  appendFamilyTokens "NM" 34 ["D", "G", "S", "B"] ++
  appendFamilyTokens "NPN" 26 ["C", "B", "E"] ++
  appendFamilyTokens "PNP" 26 ["C", "B", "E"] ++
  appendFamilyTokens "R" 27 ["P", "N"] ++
  appendFamilyTokens "C" 15 ["P", "N"] ++
  appendFamilyTokens "L" 23 ["P", "N"] ++
  appendFamilyTokens "DIO" 7 ["P", "N"] ++
  appendFamilyTokens "XOR" 1 ["A", "B", "VDD", "VSS", "Y"] ++
  appendFamilyTokens "PFD" 1 ["A", "B", "QA", "QB", "VDD", "VSS"] ++
  appendFamilyTokens "INVERTER" 10 ["A", "Q", "VDD", "VSS"] ++
  appendFamilyTokens "TRANSMISSION_GATE" 12 ["A", "B", "C", "VDD", "VSS"] ++
  SPECIAL_TOKENS

/-- `device_root(pin)` (lines 70-74): `pin.split("_", 1)[0]` when `"_" in pin`. -/
def device_root (pin : String) : String :=
  if pyContainsUnderscore pin then pyBeforeUnderscore pin else pin

/-- `initial_adjacency()` (lines 79-84). -/
def initial_adjacency : List (String × List String) := [("VDD", []), ("VSS", [])]

/-- `adj.get(k, [])` convenience used by the state machine. -/
def adjGetD (adj : List (String × List String)) (k : String) : List String :=
  (alookup adj k).getD []

/-- `add_edge(adj, a, b)` (lines 86-90).  The two `append` statements re-read
the dictionary, which also captures Python's aliasing behaviour for a
self-loop (`a == b`): after appending `b` to `adj[a]`, the check
`a not in adj[b]` sees the already-appended entry. -/
def add_edge (adj : List (String × List String)) (a b : String) :
    List (String × List String) :=
  let adj1 := if (alookup adj a).isSome then adj else adj ++ [(a, [])]
  let adj2 := if (alookup adj1 b).isSome then adj1 else adj1 ++ [(b, [])]
  let la := adjGetD adj2 a
  let adj3 := if b ∈ la then adj2 else aupdate adj2 a (la ++ [b])
  let lb := adjGetD adj3 b
  if a ∈ lb then adj3 else aupdate adj3 b (lb ++ [a])

/-- `all_candidate_new_pins(used_devices)` (lines 92-113), including the
first-occurrence deduplication of the `p not in candidates` check; the
`for root in sorted(used_devices)` loop visits the used roots in ascending
order. -/
def all_candidate_new_pins (used_devices : List String) : List String :=
  let cands :=
    (["NM1", "PM1", "R1", "C1", "INVERTER1"].flatMap fun base =>
      TOKENS.filter fun p => pyStartsWith p (base ++ "_"))
  let cands :=
    (insertionSort pyStrLe used_devices).foldl
      (fun cs root =>
        TOKENS.foldl
          (fun cs2 p =>
            if pyStartsWith p (root ++ "_") ∧ p ∉ cs2 then cs2 ++ [p] else cs2)
          cs)
      cands
  (cands ++ ["VDD", "VSS"]).filter (· ≠ "END")

/-! ## `euler_mcts.py`: the Euler-trail state machine -/

/-- `Edge = Tuple[str, str]` — undirected conceptual edge, ordered as
`(min, max)` for hashing (line 18). -/
abbrev Edge := String × String

/-- `_norm_edge(a, b)` (lines 20-21). -/
def normEdge (a b : String) : Edge := if pyStrLe a b then (a, b) else (b, a)

/-- `EulerState` (lines 23-30); field defaults mirror the dataclass defaults.
The Python sets `visited_edges` and `used_device_roots` are modelled as
duplicate-free lists (their iteration order is only ever observed through
`sorted(...)`, which the model applies wherever the code does). -/
structure EulerState where
  current_pin : String
  start_pin : String := "VSS"
  adjacency : List (String × List String) := initial_adjacency
  visited_edges : List Edge := []
  used_device_roots : List String := []
  seq : List String := []

/-- `EulerState.is_complete` (lines 81-87): the total undirected edge count is
the sum of the adjacency-list lengths, floor-divided by two, and completeness
asks `len(visited_edges) >= total_edges and total_edges > 0`.  The current pin
is not consulted. -/
def EulerState.is_complete (s : EulerState) : Bool :=
  let total := (s.adjacency.foldl (fun acc kv => acc + kv.2.length) 0) / 2
  decide (total ≤ s.visited_edges.length) && decide (0 < total)

/-- `EulerState.legal_actions` (lines 32-49): moves along unused existing
edges in adjacency-list order, then `ADD:<pin>` candidates while the state is
not complete, then `END` when complete and back at the start. -/
def EulerState.legal_actions (s : EulerState) : List String :=
  let moves := (adjGetD s.adjacency s.current_pin).filter
    (fun nb => decide (normEdge s.current_pin nb ∉ s.visited_edges))
  let adds :=
    if s.is_complete then []
    else (all_candidate_new_pins s.used_device_roots).map (fun pin => "ADD:" ++ pin)
  let ends := if s.is_complete && (s.current_pin == s.start_pin) then ["END"] else []
  moves ++ adds ++ ends

/-- `EulerState.apply` (lines 51-79).  The state is first copied (line 52) and
only the copy is mutated, so the operation is a pure function of the input.
For an `ADD:` action, `action.split("ADD:", 1)[1]` is the suffix after the
leading `"ADD:"`, i.e. `action.drop 4`.  No branch validates the action. -/
def EulerState.apply (s : EulerState) (action : String) : EulerState :=
  if action = "END" then
    { s with seq := s.seq ++ ["END"] }
  else if pyStartsWith action "ADD:" then
    let pin := pyDrop action 4
    let root := device_root pin
    { s with
      adjacency := add_edge s.adjacency s.current_pin pin
      seq := s.seq ++ [action]
      used_device_roots :=
        if pyContainsUnderscore pin then setInsert root s.used_device_roots
        else s.used_device_roots }
  else
    let nb := action
    let e := normEdge s.current_pin nb
    let root := device_root nb
    { s with
      visited_edges := setInsert e s.visited_edges
      seq := s.seq ++ [nb]
      current_pin := nb
      used_device_roots :=
        if pyContainsUnderscore nb then setInsert root s.used_device_roots
        else s.used_device_roots }

/-- Lexicographic comparison on edges, matching Python's tuple comparison used
by `sorted(self.visited_edges)`. -/
def edgeLEb (e f : Edge) : Bool :=
  pyStrLt e.1 f.1 || (decide (e.1 = f.1) && pyStrLe e.2 f.2)

/-- `EulerState.hash_key` (lines 99-100): the current pin together with the
sorted tuple of visited edges. -/
def EulerState.hash_key (s : EulerState) : String × List Edge :=
  (s.current_pin, insertionSort edgeLEb s.visited_edges)

/-! ## `netlist_io.py`: the reward -/

/-- `_contains_supply_loop(state)` (lines 24-28): both supplies are adjacency
keys with a non-empty neighbour list, and at least 3 edges are visited. -/
def containsSupplyLoop (s : EulerState) : Bool :=
  let touched := fun (pin : String) =>
    match alookup s.adjacency pin with
    | some l => decide (0 < l.length)
    | none => false
  touched "VDD" && touched "VSS" && decide (3 ≤ s.visited_edges.length)

/-- `_heuristic_reward(state)` (lines 30-38). -/
def heuristicReward (s : EulerState) : ℚ :=
  let score : ℚ := (1 / 10) * s.visited_edges.length
  let score := if containsSupplyLoop s then score + 1 else score
  let score :=
    if s.is_complete && (s.current_pin == s.start_pin) then score + 1 / 2 else score
  let add_ops := (s.seq.filter (fun a => pyStartsWith a "ADD:")).length
  let score := score - (1 / 100) * add_ops
  max 0 score

/-- `score_circuit(state)` (lines 66-83) in the environment without PySpice
(`HAVE_PYSPICE = False`, line 22): the simulation branch at lines 73-80 is
skipped and the function returns the heuristic fallback of line 83. -/
def score_circuit (s : EulerState) : ℚ := heuristicReward s

/-! ## `euler_mcts.py`: MCTS with PUCT -/

/-- `Node` (lines 104-111); field defaults mirror the dataclass defaults.
`children` is a `Dict[str, Node]`, i.e. an insertion-ordered association
list. -/
structure NodeT where
  state : EulerState
  prior : ℚ := 0
  N : ℕ := 0
  W : ℚ := 0
  Q : ℚ := 0
  children : List (String × NodeT) := []

/-- The `MCTS.__init__` parameters (lines 114-119).  `policy` is the optional
`(state, actions) -> priors` callable.  `sqrtN` models the `math.sqrt` library
primitive applied to the integer `total_N`; theorems quantify over it, and
witnesses instantiate it with `Nat.sqrt` (exact on the perfect squares they
use).  The `rng` field is only consulted by `best_action` at positive
temperature, where the drawn `random()` value is passed explicitly. -/
structure MCTSCfg where
  c_puct : ℚ := 3 / 2
  num_simulations : ℕ := 200
  policy : Option (EulerState → List String → List (String × ℚ)) := none
  sqrtN : ℕ → ℚ

/-- `MCTS._priors` (lines 201-209): with no policy, uniform weight 1 per
action (keyed, so repeated actions collapse as in a dict comprehension), `END`
re-weighted to 2 when present, then normalisation by the total. -/
def mctsPriors (cfg : MCTSCfg) (state : EulerState) (actions : List String) :
    List (String × ℚ) :=
  match cfg.policy with
  | some pol => pol state actions
  | none =>
      let priors : List (String × ℚ) :=
        actions.foldl
          (fun m a => if (alookup m a).isSome then m else m ++ [(a, 1)]) []
      let priors :=
        if (alookup priors "END").isSome then aupdate priors "END" 2 else priors
      let total := priors.foldl (fun acc kv => acc + kv.2) 0
      priors.map (fun kv => (kv.1, kv.2 / total))

/-- One iteration of the `MCTS._rollout` loop body (lines 214-224), iterated
`max_steps = 64` times: stop on an empty action set; take `END` when complete
and back at the start; otherwise prefer the first move action, falling back to
the first action. -/
def rolloutLoop : ℕ → EulerState → EulerState
  | 0, s => s
  | fuel + 1, s =>
      match s.legal_actions with
      | [] => s
      | a0 :: rest =>
          let acts := a0 :: rest
          if "END" ∈ acts ∧ s.is_complete ∧ s.current_pin = s.start_pin then
            s.apply "END"
          else
            let move_acts :=
              acts.filter (fun a => !(pyStartsWith a "ADD:") && a ≠ "END")
            let a := match move_acts with
              | [] => a0
              | m :: _ => m
            rolloutLoop fuel (s.apply a)

/-- `MCTS._rollout(state)` (lines 211-227): run the greedy rollout from a copy
of the state for up to 64 steps and score the result with
`netlist_io.score_circuit`. -/
def mctsRolloutReward (s : EulerState) : ℚ :=
  score_circuit (rolloutLoop 64 s)

/-- The per-child selection score `ch.Q + U` of lines 142-144, with
`U = c_puct * P * sqrt(total_N) / (1 + ch.N)`.  (`ch.prior` is never `None`
in the model, so the `if ch.prior is not None` guard is the identity.) -/
def childScore (cfg : MCTSCfg) (totalN : ℕ) (ch : NodeT) : ℚ :=
  ch.Q + cfg.c_puct * ch.prior * cfg.sqrtN totalN / (1 + (ch.N : ℚ))

/-- `total_N = sum(ch.N for ch in node.children.values()) + 1` (line 139). -/
def selTotalN (children : List (String × NodeT)) : ℕ :=
  (children.foldl (fun acc kv => acc + kv.2.N) 0) + 1

/-- The selection fold of lines 139-146: `total_N` is the sum of the children's
visit counts plus one, and the running best (initially `None` with score
`-1e9`) is replaced only on a strictly greater score, so the first maximal
child in insertion order wins. -/
def selectChild (cfg : MCTSCfg) (children : List (String × NodeT)) :
    Option (String × NodeT) :=
  let totalN := selTotalN children
  let best :=
    children.foldl
      (fun best kv =>
        let score := childScore cfg totalN kv.2
        match best with
        | none => if score > -(10 ^ 9 : ℚ) then some (kv.1, kv.2, score) else none
        | some b => if score > b.2.2 then some (kv.1, kv.2, score) else some b)
      none
  best.map (fun b => (b.1, b.2.1))

/-- The backup increments of lines 176-179 applied to one node on the path:
`n.N += 1; n.W += reward; n.Q = n.W / n.N`. -/
def backup1 (n : NodeT) (r : ℚ) : NodeT :=
  { n with N := n.N + 1, W := n.W + r, Q := (n.W + r) / ((n.N : ℚ) + 1) }

/-- The expansion/simulation tail of one simulation (lines 158-172) executed
at the node where the selection loop stopped: if the node has no children and
has legal actions, create the single child for the first action (the `for`
loop breaks after one iteration, line 169), push `(node, a)` on the path (so
the parent is backed up, the fresh child is not), and roll out from the child;
otherwise roll out from the node itself, which stays off the path. -/
def finishAt (cfg : MCTSCfg) (n : NodeT) : NodeT × ℚ :=
  if n.children.isEmpty then
    match n.state.legal_actions with
    | [] => (n, mctsRolloutReward n.state)
    | a0 :: rest =>
        let acts := a0 :: rest
        let priors := mctsPriors cfg n.state acts
        let next_state := n.state.apply a0
        let ch : NodeT :=
          { state := next_state
            prior := (alookup priors a0).getD (1 / (max 1 acts.length : ℕ))
            N := 0, W := 0, Q := 0, children := [] }
        let r := mctsRolloutReward ch.state
        (backup1 { n with children := aupdate n.children a0 ch } r, r)
  else (n, mctsRolloutReward n.state)

/-- One full simulation of the `for _ in range(self.num_simulations)` body
(lines 128-179), written as structural recursion on a fuel bound (the Python
`while True` selection loop always terminates because it descends strictly
into a finite tree; `none` signals either fuel exhaustion or the
`best_child is None` situation in which the Python code would crash at line
159 with an attribute error).  Each recursion level performs the backup of
lines 176-179 on its own node exactly when the Python code pushed that node on
`path`. -/
def simulateF (cfg : MCTSCfg) : ℕ → NodeT → Option (NodeT × ℚ)
  | 0, _ => none
  | fuel + 1, node =>
      match node.state.legal_actions with
      | [] => some (node, mctsRolloutReward node.state)
      | _ :: _ =>
          if node.children.isEmpty then some (finishAt cfg node)
          else
            match selectChild cfg node.children with
            | none => none
            | some (a, ch) =>
                if a == "END" || ch.children.isEmpty then
                  let fr := finishAt cfg ch
                  some (backup1 { node with children := aupdate node.children a fr.1 } fr.2,
                        fr.2)
                else
                  match simulateF cfg fuel ch with
                  | none => none
                  | some (ch', r) =>
                      some (backup1 { node with children := aupdate node.children a ch' } r,
                            r)

/-- The `num_simulations` sequential simulations of `MCTS.run`
(lines 128-179). -/
def runSims (cfg : MCTSCfg) (fuel : ℕ) : ℕ → NodeT → Option NodeT
  | 0, root => some root
  | k + 1, root =>
      match simulateF cfg fuel root with
      | none => none
      | some (root', _) => runSims cfg fuel k root'

/-- First-match lookup in the transposition table. -/
def lookupKey (table : List ((String × List Edge) × NodeT)) (k : String × List Edge) :
    Option NodeT :=
  match table with
  | [] => none
  | (k', v) :: rest => if k' = k then some v else lookupKey rest k

/-- Table update with Python dict semantics (replace in place or append). -/
def updateKey (table : List ((String × List Edge) × NodeT)) (k : String × List Edge)
    (v : NodeT) : List ((String × List Edge) × NodeT) :=
  match table with
  | [] => [(k, v)]
  | (k', v') :: rest =>
      if k' = k then (k, v) :: rest else (k', v') :: updateKey rest k v

/-- `MCTS.run(root_state)` (lines 121-181).  The transposition table
`self.table` maps canonical keys to root nodes; expansion only ever creates
fresh nodes and never inserts them into the table, so distinct table entries
are disjoint trees and Python's in-place mutation of the root is faithfully
modelled by storing the updated root back under its key. -/
def MCTSrun (cfg : MCTSCfg) (fuel : ℕ) (table : List ((String × List Edge) × NodeT))
    (root_state : EulerState) : Option (NodeT × List ((String × List Edge) × NodeT)) :=
  match runSims cfg fuel cfg.num_simulations
      (match lookupKey table root_state.hash_key with
        | some n => n
        | none => { state := root_state, prior := 1, N := 0, W := 0, Q := 0, children := [] }) with
  | none => none
  | some root' => some (root', updateKey table root_state.hash_key root')

/-- The Python `max(items, key=...)` idiom: first element attaining the
maximal key in iteration order. -/
def pyMaxByN (kv : String × NodeT) (rest : List (String × NodeT)) : String × NodeT :=
  rest.foldl (fun best x => if x.2.N > best.2.N then x else best) kv

/-- The soft-sampling scan of lines 193-198: accumulate weights and return the
first action whose running total reaches `r`. -/
def softPick (r : ℚ) : List (String × NodeT) → List ℚ → ℚ → Option String
  | (a, _) :: items, w :: ws, acc =>
      if r ≤ acc + w then some a else softPick r items ws (acc + w)
  | _, _, _ => none

/-- `MCTS.best_action(root, temperature)` (lines 183-199).  `powFn` models the
float `pow(base, exponent)` library primitive of line 191 and `rand01` the
`self.rng.random()` draw of line 193; both are only consulted on the
soft-sampling branch.  The float literals `1e-8`, `1e-6` are taken at their
decimal value. -/
def bestAction (root : NodeT) (temperature : ℚ) (powFn : ℚ → ℚ → ℚ) (rand01 : ℚ) :
    String :=
  match root.children with
  | [] => "END"
  | kv :: rest =>
      if temperature ≤ 1 / 10 ^ 8 then (pyMaxByN kv rest).1
      else
        let items := kv :: rest
        let weights :=
          items.map (fun x => powFn ((x.2.N : ℚ) + 1 / 10 ^ 6) (1 / temperature))
        let total := weights.foldl (· + ·) 0
        let r := rand01 * total
        match softPick r items weights 0 with
        | some a => a
        | none => (items.getLastD kv).1

/-! ## Tree paths and invariants used by the theorems -/

/-- Follow a sequence of action labels down the children maps. -/
def getPath : NodeT → List String → Option NodeT
  | n, [] => some n
  | n, a :: p =>
      match alookup n.children a with
      | none => none
      | some c => getPath c p

/-- Backup effect of one simulation returning reward `r`: every node position
that existed before is preserved and either untouched or incremented by
exactly one visit and `r` total value with `Q` recomputed as `W/N`; every node
position that is new afterwards is a freshly created child with zero
statistics and no children of its own. -/
def PathOk (n n' : NodeT) (r : ℚ) : Prop :=
  (∀ p m, getPath n p = some m →
    ∃ m', getPath n' p = some m' ∧
      (m' = m ∨
        (m'.N = m.N + 1 ∧ m'.W = m.W + r ∧ m'.Q = (m.W + r) / ((m.N : ℚ) + 1)))) ∧
  (∀ p m', getPath n p = none → getPath n' p = some m' →
    m'.N = 0 ∧ m'.W = 0 ∧ m'.Q = 0 ∧ m'.children = [])

/-- Well-formedness of a node tree: every children map has duplicate-free
keys (true of every tree the engine builds, since children maps are Python
dicts). -/
inductive KeysOk : NodeT → Prop where
  | mk (n : NodeT) :
      (n.children.map Prod.fst).Nodup →
      (∀ kv ∈ n.children, KeysOk kv.2) →
      KeysOk n

/-! ## Spec-side definitions (for refinement comparisons)

These definitions follow the words of the specification, to be compared
against the code-derived definitions above. -/

/-- Spec's selection score: `Q(child) + c_puct * P(child) * sqrt(N(parent)) /
(1 + N(child))`, where `N(parent)` is the parent's own visit count. -/
def claimChildScore (cfg : MCTSCfg) (parentN : ℕ) (ch : NodeT) : ℚ :=
  ch.Q + cfg.c_puct * ch.prior * cfg.sqrtN parentN / (1 + (ch.N : ℚ))

/-- Spec's selection rule: descend to the child maximizing `claimChildScore`
with ties broken by lexicographically ascending action label. -/
def claimSelectChild (cfg : MCTSCfg) (parent : NodeT) : Option (String × NodeT) :=
  parent.children.foldl
    (fun best kv =>
      match best with
      | none => some kv
      | some b =>
          let sb := claimChildScore cfg parent.N b.2
          let sk := claimChildScore cfg parent.N kv.2
          if sk > sb ∨ (sk = sb ∧ pyStrLt kv.1 b.1) then some kv else some b)
    none

/-- Spec's `bestAction` at temperature zero: the action of the most-visited
child, ties broken by lexicographically smaller action label. -/
def claimBestActionT0 (root : NodeT) : Option String :=
  (root.children.foldl
    (fun best kv =>
      match best with
      | none => some kv
      | some b =>
          if kv.2.N > b.2.N ∨ (kv.2.N = b.2.N ∧ pyStrLt kv.1 b.1) then some kv
          else some b)
    none).map Prod.fst

/-- Spec's "both distinguished supply nodes have at least one incident
edge". -/
def specSuppliesTouched (s : EulerState) : Prop :=
  0 < (adjGetD s.adjacency "VDD").length ∧ 0 < (adjGetD s.adjacency "VSS").length

instance (s : EulerState) : Decidable (specSuppliesTouched s) := by
  unfold specSuppliesTouched; infer_instance

/-- Spec's default-heuristic reward written as one closed formula:
`0.1·|visited|`, plus `1.0` for the supply/closed-loop signal, plus `0.5` for
a completed trail back at the start, minus `0.01` per `ADD` in the history,
floored at `0`. -/
def specHeuristicFormula (s : EulerState) : ℚ :=
  max 0
    ((1 / 10) * s.visited_edges.length
      + (if specSuppliesTouched s ∧ 3 ≤ s.visited_edges.length then 1 else 0)
      + (if s.is_complete ∧ s.current_pin = s.start_pin then (1 : ℚ) / 2 else 0)
      - (1 / 100) * (s.seq.filter (fun a => pyStartsWith a "ADD:")).length)

/-- The list of directed neighbour pairs recorded in an adjacency. -/
def adjPairs (adj : List (String × List String)) : List (String × String) :=
  adj.flatMap fun kv => kv.2.map fun b => (kv.1, b)

/-- Spec's "total undirected edge count of the adjacency": the number of
distinct canonical edges it contains. -/
def specEdgeCount (adj : List (String × List String)) : ℕ :=
  ((adjPairs adj).map fun p => normEdge p.1 p.2).toFinset.card

/-- Well-formed adjacency: duplicate-free keys and neighbour lists, symmetric,
and without self-loops (all invariants of `add_edge`-built adjacencies). -/
def AdjWF (adj : List (String × List String)) : Prop :=
  (adj.map Prod.fst).Nodup ∧
  (∀ kv ∈ adj, kv.2.Nodup) ∧
  (∀ kv ∈ adj, ∀ b ∈ kv.2, kv.1 ∈ adjGetD adj b) ∧
  (∀ kv ∈ adj, kv.1 ∉ kv.2)

/-! ## Concrete engine configurations and states used by witnesses -/

/-- The integer square root, written structurally so the kernel can evaluate
it (`Nat.sqrt` uses well-founded recursion): the largest `k ≤ n` with
`k * k ≤ n`. -/
def demoSqrt (n : ℕ) : ℚ :=
  (((List.range (n + 1)).filter fun k => k * k ≤ n).getLastD 0 : ℕ)

/-- A concrete engine configuration: defaults (`c_puct = 1.5`, no policy),
one simulation per `run`, and `math.sqrt` instantiated by the integer square
root (exact on the perfect squares the demonstrations reach). -/
def demoCfg : MCTSCfg := { num_simulations := 1, sqrtN := demoSqrt }

/-- A completed one-edge loop at its start pin: `legal_actions = ["END"]`. -/
def demoLoopState : EulerState :=
  { current_pin := "A", start_pin := "A",
    adjacency := [("A", ["B"]), ("B", ["A"])], visited_edges := [("A", "B")] }

/-- A fresh root node for `demoLoopState`, as `MCTS.run` would create it. -/
def demoLoopRoot : NodeT :=
  { state := demoLoopState, prior := 1, N := 0, W := 0, Q := 0, children := [] }

/-- The canonical initial search state of `run.py`: current pin `VSS`, only
the two supplies in the adjacency.  Eighteen `ADD:` actions are legal. -/
def demoStartState : EulerState := { current_pin := "VSS" }

/-- A fresh root node for `demoStartState`. -/
def demoStartRoot : NodeT :=
  { state := demoStartState, prior := 1, N := 0, W := 0, Q := 0, children := [] }

/-- A state whose visited-edge count reaches the adjacency's edge count while
the current pin differs from the start pin (and whose visited set contains an
edge outside the adjacency). -/
def demoElsewhereState : EulerState :=
  { current_pin := "B", start_pin := "A",
    adjacency := [("A", ["B"]), ("B", ["A"])],
    visited_edges := [("A", "B"), ("C", "D")] }

/-- A pure-value child: `Q = 3/2`, zero prior, unvisited. -/
def demoSelB : NodeT :=
  { state := demoStartState, prior := 0, N := 0, W := 0, Q := 3 / 2, children := [] }

/-- A pure-prior child: `P = 1`, zero value, unvisited. -/
def demoSelA : NodeT :=
  { state := demoStartState, prior := 1, N := 0, W := 0, Q := 0, children := [] }

/-- A two-children node on which the selection formula and tie-break can be
observed: inserted in order `"B"` (pure value) then `"A"` (pure prior), with
parent visit count 4. -/
def demoSelNode : NodeT :=
  { state := demoStartState, prior := 0, N := 4, W := 0, Q := 0,
    children := [("B", demoSelB), ("A", demoSelA)] }

/-- A once-visited child with no statistics beyond `N = 1`. -/
def demoTieChild : NodeT :=
  { state := demoStartState, prior := 0, N := 1, W := 0, Q := 0, children := [] }

/-- A node with two equally-visited children inserted in order `"B"`, `"A"`. -/
def demoTieNode : NodeT :=
  { state := demoStartState, prior := 0, N := 2, W := 0, Q := 0,
    children := [("B", demoTieChild), ("A", demoTieChild)] }

/-- A placeholder for the `pow` primitive of the soft-sampling branch; the
theorems that use it never reach that branch. -/
def demoPow : ℚ → ℚ → ℚ := fun x _ => x

/-- One simulation from a fresh root over the completed loop. -/
def demoSim1 : Option (NodeT × ℚ) := simulateF demoCfg 1 demoLoopRoot

/-- The updated root of that simulation. -/
def demoN1 : NodeT := (demoSim1.getD (demoLoopRoot, 0)).1

/-- The reward of that simulation. -/
def demoR1 : ℚ := (demoSim1.getD (demoLoopRoot, 0)).2

/-- One simulation from a fresh root over the initial search state. -/
def demoSimStart : Option (NodeT × ℚ) := simulateF demoCfg 1 demoStartRoot

/-- The updated root of that simulation. -/
def demoStartN1 : NodeT := (demoSimStart.getD (demoStartRoot, 0)).1

/-- The reward of that simulation. -/
def demoStartR1 : ℚ := (demoSimStart.getD (demoStartRoot, 0)).2

/-- A first `run` (one simulation) from the completed loop on an empty table. -/
def demoRun1 : Option (NodeT × List ((String × List Edge) × NodeT)) :=
  MCTSrun demoCfg 3 [] demoLoopState

/-- Root returned by the first run. -/
def demoRun1Root : NodeT := (demoRun1.getD (demoLoopRoot, [])).1

/-- Table after the first run. -/
def demoRun1Table : List ((String × List Edge) × NodeT) :=
  (demoRun1.getD (demoLoopRoot, [])).2

/-- A second `run` from the same state on the resulting table. -/
def demoRun2 : Option (NodeT × List ((String × List Edge) × NodeT)) :=
  MCTSrun demoCfg 3 demoRun1Table demoLoopState

/-- Root returned by the second run. -/
def demoRun2Root : NodeT := (demoRun2.getD (demoLoopRoot, [])).1

/-- Table after the second run. -/
def demoRun2Table : List ((String × List Edge) × NodeT) :=
  (demoRun2.getD (demoLoopRoot, [])).2

/-! # Theorems -/

/-! ## Association-list lemmas -/

@[simp] theorem alookup_nil {β : Type} (k : String) : alookup ([] : List (String × β)) k = none := rfl

theorem alookup_aupdate_self {β : Type} (l : List (String × β)) (k : String) (v : β) :
    alookup (aupdate l k v) k = some v := by
  induction l with
  | nil => simp [aupdate, alookup]
  | cons hd tl ih =>
      obtain ⟨k', v'⟩ := hd
      by_cases h : k' = k <;> simp [aupdate, alookup, h, ih]

theorem alookup_aupdate_ne {β : Type} (l : List (String × β)) (k b : String) (v : β)
    (hne : b ≠ k) : alookup (aupdate l k v) b = alookup l b := by
  have hkb : k ≠ b := Ne.symm hne
  induction l with
  | nil => simp [aupdate, alookup, hkb]
  | cons hd tl ih =>
      obtain ⟨k', v'⟩ := hd
      by_cases h : k' = k
      · subst h
        simp [aupdate, alookup, hkb]
      · by_cases h2 : k' = b
        · simp [aupdate, alookup, h, h2, hne]
        · simp [aupdate, alookup, h, h2, ih]

theorem aupdate_length_ge {β : Type} (l : List (String × β)) (k : String) (v : β) :
    l.length ≤ (aupdate l k v).length := by
  induction l with
  | nil => simp [aupdate]
  | cons hd tl ih =>
      obtain ⟨k', v'⟩ := hd
      by_cases h : k' = k
      all_goals simp [aupdate, h]
      all_goals omega

theorem aupdate_keys_of_mem {β : Type} (l : List (String × β)) (k : String) (v : β)
    (h : (alookup l k).isSome) :
    (aupdate l k v).map Prod.fst = l.map Prod.fst := by
  induction l with
  | nil => simp [alookup] at h
  | cons hd tl ih =>
      obtain ⟨k', v'⟩ := hd
      by_cases hk : k' = k
      · simp [aupdate, hk]
      · simp [alookup, hk] at h
        simp [aupdate, hk, ih h]

theorem alookup_append_some {β : Type} {l1 : List (String × β)} (l2 : List (String × β))
    {k : String} {v : β} (h : alookup l1 k = some v) : alookup (l1 ++ l2) k = some v := by
  induction l1 with
  | nil => simp [alookup] at h
  | cons hd tl ih =>
      obtain ⟨k', v'⟩ := hd
      by_cases hk : k' = k
      · simpa [alookup, hk] using h
      · simp [alookup, hk] at h ⊢
        exact ih h

theorem alookup_append_none {β : Type} {l1 : List (String × β)} (l2 : List (String × β))
    {k : String} (h : alookup l1 k = none) : alookup (l1 ++ l2) k = alookup l2 k := by
  induction l1 with
  | nil => simp
  | cons hd tl ih =>
      obtain ⟨k', v'⟩ := hd
      by_cases hk : k' = k
      · simp [alookup, hk] at h
      · simp [alookup, hk] at h ⊢
        exact ih h

/-! ## Set- and adjacency-level lemmas -/

theorem subset_setInsert {α : Type} [DecidableEq α] (x : α) (s : List α) :
    s ⊆ setInsert x s := by
  unfold setInsert
  split
  · exact fun _ h => h
  · exact fun _ h => List.mem_append_left _ h

theorem mem_setInsert_self {α : Type} [DecidableEq α] (x : α) (s : List α) :
    x ∈ setInsert x s := by
  unfold setInsert
  split
  · assumption
  · simp

theorem length_le_setInsert {α : Type} [DecidableEq α] (x : α) (s : List α) :
    s.length ≤ (setInsert x s).length := by
  unfold setInsert
  split
  · exact le_refl _
  · simp

theorem adjGetD_append_empty (l : List (String × List String)) (x k : String) :
    adjGetD (l ++ [(x, [])]) k = adjGetD l k := by
  unfold adjGetD
  cases h : alookup l k with
  | some v => rw [alookup_append_some _ h]
  | none =>
      rw [alookup_append_none _ h]
      by_cases hx : x = k <;> simp [alookup, hx]

theorem adjGetD_ensure_extends (l : List (String × List String)) (x k : String) :
    adjGetD l k <+: adjGetD (if (alookup l x).isSome then l else l ++ [(x, [])]) k := by
  split
  · exact List.prefix_refl _
  · rw [adjGetD_append_empty]

theorem adjGetD_appendNb_extends (l : List (String × List String)) (x y k : String) :
    adjGetD l k <+:
      adjGetD (if y ∈ adjGetD l x then l else aupdate l x (adjGetD l x ++ [y])) k := by
  split
  · exact List.prefix_refl _
  · by_cases hk : k = x
    · subst hk
      unfold adjGetD
      rw [alookup_aupdate_self]
      exact List.prefix_append _ _
    · unfold adjGetD
      rw [alookup_aupdate_ne _ _ _ _ hk]

theorem adjGetD_add_edge_prefix (adj : List (String × List String)) (a b k : String) :
    adjGetD adj k <+: adjGetD (add_edge adj a b) k := by
  unfold add_edge
  exact ((adjGetD_ensure_extends adj a k).trans
    ((adjGetD_ensure_extends _ b k).trans
      ((adjGetD_appendNb_extends _ a b k).trans (adjGetD_appendNb_extends _ b a k))))

theorem length_le_ensure (l : List (String × List String)) (x : String) :
    l.length ≤ (if (alookup l x).isSome then l else l ++ [(x, [])]).length := by
  split
  · exact le_refl _
  · simp

theorem length_le_appendNb (l : List (String × List String)) (x y : String) :
    l.length ≤ (if y ∈ adjGetD l x then l else aupdate l x (adjGetD l x ++ [y])).length := by
  split
  · exact le_refl _
  · exact aupdate_length_ge _ _ _

theorem add_edge_length_ge (adj : List (String × List String)) (a b : String) :
    adj.length ≤ (add_edge adj a b).length := by
  unfold add_edge
  exact le_trans (length_le_ensure adj a)
    (le_trans (length_le_ensure _ b)
      (le_trans (length_le_appendNb _ a b) (length_le_appendNb _ b a)))

/-! ## Per-step monotonicity of `EulerState.apply` -/

theorem apply_visited_subset (s : EulerState) (action : String) :
    s.visited_edges ⊆ (s.apply action).visited_edges := by
  unfold EulerState.apply
  split
  · exact fun _ h => h
  · split
    · exact fun _ h => h
    · exact subset_setInsert _ _

theorem apply_seq_prefix (s : EulerState) (action : String) :
    s.seq <+: (s.apply action).seq := by
  unfold EulerState.apply
  split
  · exact List.prefix_append _ _
  · split
    · exact List.prefix_append _ _
    · exact List.prefix_append _ _

theorem apply_adjGetD_prefix (s : EulerState) (action : String) (k : String) :
    adjGetD s.adjacency k <+: adjGetD (s.apply action).adjacency k := by
  unfold EulerState.apply
  split
  · exact List.prefix_refl _
  · split
    · exact adjGetD_add_edge_prefix _ _ _ _
    · exact List.prefix_refl _

theorem apply_adj_length (s : EulerState) (action : String) :
    s.adjacency.length ≤ (s.apply action).adjacency.length := by
  unfold EulerState.apply
  split
  · exact le_refl _
  · split
    · exact add_edge_length_ge _ _ _
    · exact le_refl _

theorem apply_visited_length (s : EulerState) (action : String) :
    s.visited_edges.length ≤ (s.apply action).visited_edges.length := by
  unfold EulerState.apply
  split
  · exact le_refl _
  · split
    · exact le_refl _
    · exact length_le_setInsert _ _

theorem foldl_apply_visited_length (s : EulerState) (acts : List String) :
    s.visited_edges.length ≤ (acts.foldl EulerState.apply s).visited_edges.length := by
  induction acts generalizing s with
  | nil => exact le_refl _
  | cons a rest ih =>
      exact le_trans (apply_visited_length s a) (by simpa using ih (s.apply a))

theorem foldl_apply_adj_length (s : EulerState) (acts : List String) :
    s.adjacency.length ≤ (acts.foldl EulerState.apply s).adjacency.length := by
  induction acts generalizing s with
  | nil => exact le_refl _
  | cons a rest ih =>
      exact le_trans (apply_adj_length s a) (by simpa using ih (s.apply a))

/-- **C9** (confirmed).  Action application is monotonic and copy-on-write:
`apply` is a pure function of the input state (the Python code mutates only
the clone made on line 52, so the original object is untouched), and for every
state and every action the new state's `visited_edges` is a superset of the
old, every adjacency neighbour list is extended in place (old list a prefix of
the new), the history `seq` is extended, and along any sequence of applied
actions the visited-edge count and the adjacency size are non-decreasing. -/
theorem C9_apply_monotone (s : EulerState) (action : String) (acts : List String) :
    s.visited_edges ⊆ (s.apply action).visited_edges ∧
    s.seq <+: (s.apply action).seq ∧
    (∀ k, adjGetD s.adjacency k <+: adjGetD (s.apply action).adjacency k) ∧
    s.adjacency.length ≤ (s.apply action).adjacency.length ∧
    s.visited_edges.length ≤ (acts.foldl EulerState.apply s).visited_edges.length ∧
    s.adjacency.length ≤ (acts.foldl EulerState.apply s).adjacency.length :=
  ⟨apply_visited_subset s action, apply_seq_prefix s action,
   apply_adjGetD_prefix s action, apply_adj_length s action,
   foldl_apply_visited_length s acts, foldl_apply_adj_length s acts⟩

/-! ## C10: `best_action` on a childless root -/

/-- **C10** (confirmed).  For a root with no children `best_action` returns
`"END"` at every temperature (the check precedes the temperature branch), and
for any state that is not complete — where `END` is not among the legal
actions, provided no graph node is literally named `"END"` — applying the
returned action still appends the terminal marker to the history (and leaves
completeness unchanged), so a caller records `END` on a non-complete trail. -/
theorem add_prefix_ne_end (a : String) : "ADD:" ++ a ≠ "END" := by
  intro h
  have hd : ("ADD:" ++ a).data = "END".data := congrArg String.data h
  rw [String.data_append] at hd
  simp [String.data] at hd

theorem C10_best_action_end (root : NodeT) (temperature : ℚ) (powFn : ℚ → ℚ → ℚ)
    (rand01 : ℚ) (hc : root.children = []) (s : EulerState)
    (hs : s.is_complete = false)
    (hadj : "END" ∉ adjGetD s.adjacency s.current_pin) :
    bestAction root temperature powFn rand01 = "END" ∧
    "END" ∉ s.legal_actions ∧
    (s.apply "END").seq = s.seq ++ ["END"] ∧
    (s.apply "END").is_complete = false := by
  refine ⟨by rw [bestAction, hc], ?_, by simp [EulerState.apply], ?_⟩
  · intro hmem
    unfold EulerState.legal_actions at hmem
    simp only [hs, Bool.false_and, Bool.false_eq_true, if_false, List.append_nil,
      List.mem_append, List.mem_map] at hmem
    rcases hmem with h | ⟨a, _, ha⟩
    · exact hadj (List.mem_of_mem_filter h)
    · exact add_prefix_ne_end a ha
  · have hfields : (s.apply "END").adjacency = s.adjacency ∧
        (s.apply "END").visited_edges = s.visited_edges := by
      unfold EulerState.apply; simp
    unfold EulerState.is_complete at hs ⊢
    simp only [hfields.1, hfields.2]
    exact hs

/-! ## C7: the default heuristic reward -/

theorem containsSupplyLoop_iff (s : EulerState) :
    containsSupplyLoop s = true ↔
      (specSuppliesTouched s ∧ 3 ≤ s.visited_edges.length) := by
  unfold containsSupplyLoop specSuppliesTouched adjGetD
  cases h1 : alookup s.adjacency "VDD" <;> cases h2 : alookup s.adjacency "VSS" <;>
    simp [h1, h2]

/-- **C7** (confirmed).  For every state the default heuristic reward equals
`0.1·|visited_edges|`, plus `1.0` when both supplies have an incident edge and
at least three edges are visited, plus `0.5` when the state is complete and the
current pin equals the start pin, minus `0.01` per `ADD` action in the
history, floored at `0.0`; in particular `score_circuit` (the PySpice-free
reward oracle) is always non-negative. -/
theorem C7_heuristic_reward (s : EulerState) :
    score_circuit s = specHeuristicFormula s ∧ 0 ≤ score_circuit s := by
  constructor
  · unfold score_circuit heuristicReward specHeuristicFormula
    have hsl := containsSupplyLoop_iff s
    have t1 : (if specSuppliesTouched s ∧ 3 ≤ s.visited_edges.length then (1 : ℚ) else 0)
        = if containsSupplyLoop s then 1 else 0 := by
      by_cases h : specSuppliesTouched s ∧ 3 ≤ s.visited_edges.length
      · rw [if_pos h, if_pos (hsl.mpr h)]
      · rw [if_neg h, if_neg (fun hc => h (hsl.mp hc))]
    have t2 : (if (s.is_complete : Prop) ∧ s.current_pin = s.start_pin then (1 : ℚ) / 2 else 0)
        = if s.is_complete && (s.current_pin == s.start_pin) then 1 / 2 else 0 := by
      by_cases h : (s.is_complete : Prop) ∧ s.current_pin = s.start_pin
      · rw [if_pos h, if_pos (by simp [h.1, h.2])]
      · rw [if_neg h, if_neg ?_]
        rw [Bool.and_eq_true]
        rintro ⟨h1, h2⟩
        exact h ⟨h1, by simpa using h2⟩
    rw [t1, t2]
    cases h1 : containsSupplyLoop s <;>
      cases h2 : s.is_complete && (s.current_pin == s.start_pin) <;>
      simp only [Bool.false_eq_true, if_false, if_true] <;>
      (congr 1 ; ring)
  · unfold score_circuit heuristicReward
    exact le_max_left 0 _

/-! ## C6: illegal moves are applied without validation -/

/-- **C6** (corrected).  `EulerState.apply` performs no legality check on a
move action: for every state and every non-`END`, non-`ADD:` action whose edge
is already visited or whose target is not adjacent to the current pin, the
move is silently recorded — the action is appended to the history, the current
pin moves to the target, and the canonical edge is in the new visited set.  No
error condition exists in the function. -/
theorem C6_apply_no_validation (s : EulerState) (nb : String) (hEnd : nb ≠ "END")
    (hAdd : pyStartsWith nb "ADD:" = false)
    (_hIllegal : normEdge s.current_pin nb ∈ s.visited_edges ∨
      nb ∉ adjGetD s.adjacency s.current_pin) :
    (s.apply nb).seq = s.seq ++ [nb] ∧
    (s.apply nb).current_pin = nb ∧
    normEdge s.current_pin nb ∈ (s.apply nb).visited_edges := by
  unfold EulerState.apply
  rw [if_neg hEnd, if_neg (by simp [hAdd])]
  exact ⟨rfl, rfl, mem_setInsert_self _ _⟩

/-! ## The selection fold: first maximal child in insertion order -/

theorem selFold_some_spec (cfg : MCTSCfg) (T : ℕ) (l : List (String × NodeT)) :
    ∀ (b r : String × NodeT × ℚ),
      l.foldl
        (fun best kv =>
          let score := childScore cfg T kv.2
          match best with
          | none => if score > -(10 ^ 9 : ℚ) then some (kv.1, kv.2, score) else none
          | some b => if score > b.2.2 then some (kv.1, kv.2, score) else some b)
        (some b) = some r →
      (r = b ∧ ∀ p ∈ l, childScore cfg T p.2 ≤ b.2.2) ∨
      (∃ l1 l2, l = l1 ++ (r.1, r.2.1) :: l2 ∧ r.2.2 = childScore cfg T r.2.1 ∧
        b.2.2 < r.2.2 ∧ (∀ p ∈ l1, childScore cfg T p.2 < r.2.2) ∧
        (∀ p ∈ l2, childScore cfg T p.2 ≤ r.2.2)) := by
  induction l with
  | nil =>
      intro b r h
      simp at h
      exact Or.inl ⟨h.symm, by simp⟩
  | cons kv l ih =>
      intro b r h
      rw [List.foldl_cons] at h
      by_cases hgt : childScore cfg T kv.2 > b.2.2
      · rw [show (let score := childScore cfg T kv.2
            match some b with
            | none => if score > -(10 ^ 9 : ℚ) then some (kv.1, kv.2, score) else none
            | some b => if score > b.2.2 then some (kv.1, kv.2, score) else some b)
            = some (kv.1, kv.2, childScore cfg T kv.2) by simp [hgt]] at h
        rcases ih _ _ h with ⟨hr, hb⟩ | ⟨l1, l2, hsplit, hsc, hlt, h1, h2⟩
        · subst hr
          refine Or.inr ⟨[], l, by simp, rfl, hgt, by simp, ?_⟩
          simpa using hb
        · refine Or.inr ⟨kv :: l1, l2, by simp [hsplit], hsc, lt_trans hgt hlt, ?_, h2⟩
          intro p hp
          rcases List.mem_cons.mp hp with rfl | hp
          · exact hlt
          · exact h1 p hp
      · rw [show (let score := childScore cfg T kv.2
            match some b with
            | none => if score > -(10 ^ 9 : ℚ) then some (kv.1, kv.2, score) else none
            | some b => if score > b.2.2 then some (kv.1, kv.2, score) else some b)
            = some b by simp [hgt]] at h
        rcases ih _ _ h with ⟨hr, hb⟩ | ⟨l1, l2, hsplit, hsc, hlt, h1, h2⟩
        · refine Or.inl ⟨hr, ?_⟩
          intro p hp
          rcases List.mem_cons.mp hp with rfl | hp
          · exact le_of_not_lt hgt
          · exact hb p hp
        · refine Or.inr ⟨kv :: l1, l2, by simp [hsplit], hsc, hlt, ?_, h2⟩
          intro p hp
          rcases List.mem_cons.mp hp with rfl | hp
          · exact lt_of_le_of_lt (le_of_not_lt hgt) hlt
          · exact h1 p hp

theorem selFold_none_spec (cfg : MCTSCfg) (T : ℕ) (l : List (String × NodeT)) :
    ∀ (r : String × NodeT × ℚ),
      l.foldl
        (fun best kv =>
          let score := childScore cfg T kv.2
          match best with
          | none => if score > -(10 ^ 9 : ℚ) then some (kv.1, kv.2, score) else none
          | some b => if score > b.2.2 then some (kv.1, kv.2, score) else some b)
        none = some r →
      ∃ l1 l2, l = l1 ++ (r.1, r.2.1) :: l2 ∧ r.2.2 = childScore cfg T r.2.1 ∧
        -(10 ^ 9 : ℚ) < r.2.2 ∧ (∀ p ∈ l1, childScore cfg T p.2 < r.2.2) ∧
        (∀ p ∈ l2, childScore cfg T p.2 ≤ r.2.2) := by
  induction l with
  | nil => intro r h; simp at h
  | cons kv l ih =>
      intro r h
      rw [List.foldl_cons] at h
      by_cases hpos : childScore cfg T kv.2 > -(10 ^ 9 : ℚ)
      · rw [show (let score := childScore cfg T kv.2
            match (none : Option (String × NodeT × ℚ)) with
            | none => if score > -(10 ^ 9 : ℚ) then some (kv.1, kv.2, score) else none
            | some b => if score > b.2.2 then some (kv.1, kv.2, score) else some b)
            = some (kv.1, kv.2, childScore cfg T kv.2) by simp [hpos]] at h
        rcases selFold_some_spec cfg T l _ _ h with ⟨hr, hb⟩ | ⟨l1, l2, hsplit, hsc, hlt, h1, h2⟩
        · subst hr
          exact ⟨[], l, by simp, rfl, hpos, by simp, by simpa using hb⟩
        · refine ⟨kv :: l1, l2, by simp [hsplit], hsc, lt_trans hpos hlt, ?_, h2⟩
          intro p hp
          rcases List.mem_cons.mp hp with rfl | hp
          · exact hlt
          · exact h1 p hp
      · rw [show (let score := childScore cfg T kv.2
            match (none : Option (String × NodeT × ℚ)) with
            | none => if score > -(10 ^ 9 : ℚ) then some (kv.1, kv.2, score) else none
            | some b => if score > b.2.2 then some (kv.1, kv.2, score) else some b)
            = none by simp [hpos]] at h
        rcases ih _ h with ⟨l1, l2, hsplit, hsc, hpos', h1, h2⟩
        refine ⟨kv :: l1, l2, by simp [hsplit], hsc, hpos', ?_, h2⟩
        intro p hp
        rcases List.mem_cons.mp hp with rfl | hp
        · exact lt_of_le_of_lt (le_of_not_lt hpos) hpos'
        · exact h1 p hp

theorem selectChild_spec (cfg : MCTSCfg) (children : List (String × NodeT))
    (a : String) (c : NodeT) (h : selectChild cfg children = some (a, c)) :
    ∃ l1 l2, children = l1 ++ (a, c) :: l2 ∧
      -(10 ^ 9 : ℚ) < childScore cfg (selTotalN children) c ∧
      (∀ p ∈ children,
        childScore cfg (selTotalN children) p.2 ≤ childScore cfg (selTotalN children) c) ∧
      (∀ p ∈ l1,
        childScore cfg (selTotalN children) p.2 < childScore cfg (selTotalN children) c) := by
  unfold selectChild at h
  rcases Option.map_eq_some'.mp h with ⟨r, hr, hpr⟩
  rcases selFold_none_spec cfg (selTotalN children) children r hr with
    ⟨l1, l2, hsplit, hsc, hpos, h1, h2⟩
  have hac : (r.1, r.2.1) = (a, c) := by
    cases hpr; rfl
  rw [hac] at hsplit
  have hcsc : r.2.2 = childScore cfg (selTotalN children) c := by
    rw [hsc]; cases hpr; rfl
  refine ⟨l1, l2, hsplit, hcsc ▸ hpos, ?_, fun p hp => hcsc ▸ h1 p hp⟩
  intro p hp
  rw [hsplit] at hp
  rcases List.mem_append.mp hp with hp | hp
  · exact le_of_lt (hcsc ▸ h1 p hp)
  · rcases List.mem_cons.mp hp with rfl | hp
    · exact le_refl _
    · exact hcsc ▸ h2 p hp

theorem selectChild_mem (cfg : MCTSCfg) (children : List (String × NodeT))
    (a : String) (c : NodeT) (h : selectChild cfg children = some (a, c)) :
    (a, c) ∈ children := by
  rcases selectChild_spec cfg children a c h with ⟨l1, l2, hsplit, -, -, -⟩
  rw [hsplit]
  simp

/-- **C4** (corrected, amended).  During selection the engine descends to the
child maximizing `Q + c_puct · P · sqrt(total_N) / (1 + N(child))`, where
`total_N` is one plus the sum of the children's visit counts — not the
parent's own visit count — and among equally-scored children the first one in
the children map's insertion order is chosen (there is no lexicographic
tie-break): the selected child is a member of the children map, its score is
maximal, and every child stored before it scores strictly lower. -/
theorem C4_selection_first_max (cfg : MCTSCfg) (children : List (String × NodeT))
    (a : String) (c : NodeT) (h : selectChild cfg children = some (a, c)) :
    ∃ l1 l2, children = l1 ++ (a, c) :: l2 ∧
      (∀ p ∈ children,
        childScore cfg (selTotalN children) p.2 ≤ childScore cfg (selTotalN children) c) ∧
      (∀ p ∈ l1,
        childScore cfg (selTotalN children) p.2 < childScore cfg (selTotalN children) c) := by
  rcases selectChild_spec cfg children a c h with ⟨l1, l2, hsplit, -, hle, hlt⟩
  exact ⟨l1, l2, hsplit, hle, hlt⟩

/-! ## `best_action` at temperature zero -/

theorem pyMaxByN_fold_spec (rest : List (String × NodeT)) :
    ∀ (kv r : String × NodeT),
      rest.foldl (fun best x => if x.2.N > best.2.N then x else best) kv = r →
      (r = kv ∧ ∀ p ∈ rest, p.2.N ≤ kv.2.N) ∨
      (∃ l1 l2, rest = l1 ++ r :: l2 ∧ kv.2.N < r.2.N ∧
        (∀ p ∈ l1, p.2.N < r.2.N) ∧ (∀ p ∈ l2, p.2.N ≤ r.2.N)) := by
  induction rest with
  | nil =>
      intro kv r h
      simp at h
      exact Or.inl ⟨h.symm, by simp⟩
  | cons x rest ih =>
      intro kv r h
      rw [List.foldl_cons] at h
      by_cases hgt : x.2.N > kv.2.N
      · rw [if_pos hgt] at h
        rcases ih _ _ h with ⟨hr, hb⟩ | ⟨l1, l2, hsplit, hlt, h1, h2⟩
        · subst hr
          exact Or.inr ⟨[], rest, by simp, hgt, by simp, hb⟩
        · refine Or.inr ⟨x :: l1, l2, by simp [hsplit], lt_trans hgt hlt, ?_, h2⟩
          intro p hp
          rcases List.mem_cons.mp hp with rfl | hp
          · exact hlt
          · exact h1 p hp
      · rw [if_neg hgt] at h
        rcases ih _ _ h with ⟨hr, hb⟩ | ⟨l1, l2, hsplit, hlt, h1, h2⟩
        · refine Or.inl ⟨hr, ?_⟩
          intro p hp
          rcases List.mem_cons.mp hp with rfl | hp
          · exact le_of_not_lt hgt
          · exact hb p hp
        · refine Or.inr ⟨x :: l1, l2, by simp [hsplit], hlt, ?_, h2⟩
          intro p hp
          rcases List.mem_cons.mp hp with rfl | hp
          · exact lt_of_le_of_lt (le_of_not_lt hgt) hlt
          · exact h1 p hp

/-- **C5** (corrected, amended).  At temperature at most `1e-8`, `best_action`
on a root with children returns the action of a child with maximal visit
count, and among equally-visited children it returns the one stored first in
the children map's insertion order (Python's `max` keeps the first maximum in
iteration order), not the lexicographically smaller action label. -/
theorem C5_best_action_first_max (root : NodeT) (kv : String × NodeT)
    (rest : List (String × NodeT)) (temperature : ℚ) (powFn : ℚ → ℚ → ℚ) (rand01 : ℚ)
    (hc : root.children = kv :: rest) (ht : temperature ≤ 1 / 10 ^ 8) :
    ∃ c l1 l2,
      root.children = l1 ++ (bestAction root temperature powFn rand01, c) :: l2 ∧
      (∀ p ∈ root.children, p.2.N ≤ c.N) ∧
      (∀ p ∈ l1, p.2.N < c.N) := by
  have hba : bestAction root temperature powFn rand01 = (pyMaxByN kv rest).1 := by
    unfold bestAction
    rw [hc]
    exact if_pos ht
  rcases pyMaxByN_fold_spec rest kv (pyMaxByN kv rest) rfl with
    ⟨hr, hb⟩ | ⟨l1, l2, hsplit, hlt, h1, h2⟩
  · refine ⟨kv.2, [], rest, ?_, ?_, by simp⟩
    · rw [hc, hba, hr]
      simp
    · rw [hc]
      intro p hp
      rcases List.mem_cons.mp hp with rfl | hp
      · exact le_refl _
      · exact hb p hp
  · refine ⟨(pyMaxByN kv rest).2, kv :: l1, l2, ?_, ?_, ?_⟩
    · rw [hc, hba]
      conv_lhs => rw [hsplit]
      simp
    · rw [hc]
      intro p hp
      rcases List.mem_cons.mp hp with rfl | hp
      · exact le_of_lt hlt
      · rw [hsplit] at hp
        rcases List.mem_append.mp hp with hp | hp
        · exact le_of_lt (h1 p hp)
        · rcases List.mem_cons.mp hp with rfl | hp
          · exact le_refl _
          · exact h2 p hp
    · intro p hp
      rcases List.mem_cons.mp hp with rfl | hp
      · exact hlt
      · exact h1 p hp

/-! ## Tree-path lemmas for the simulation loop -/

@[simp] theorem getPath_nil (n : NodeT) : getPath n [] = some n := rfl

theorem getPath_cons (n : NodeT) (a : String) (p : List String) :
    getPath n (a :: p) =
      match alookup n.children a with
      | none => none
      | some c => getPath c p := rfl

theorem pathOk_refl (n : NodeT) (r : ℚ) : PathOk n n r := by
  constructor
  · exact fun p m hm => ⟨m, hm, Or.inl rfl⟩
  · intro p m' hnone hsome
    rw [hnone] at hsome
    exact absurd hsome (by simp)

theorem alookup_of_mem_nodup {β : Type} {l : List (String × β)} {a : String} {v : β}
    (hmem : (a, v) ∈ l) (hnodup : (l.map Prod.fst).Nodup) : alookup l a = some v := by
  induction l with
  | nil => simp at hmem
  | cons hd tl ih =>
      obtain ⟨k', v'⟩ := hd
      rw [List.map_cons] at hnodup
      rcases List.nodup_cons.mp hnodup with ⟨hnotin, hnd⟩
      rcases List.mem_cons.mp hmem with heq | hmem'
      · obtain ⟨rfl, rfl⟩ := Prod.mk.inj heq
        simp [alookup]
      · have hk : k' ≠ a := by
          rintro rfl
          exact hnotin (List.mem_map.mpr ⟨(k', v), hmem', rfl⟩)
        simp only [alookup, if_neg hk]
        exact ih hmem' hnd

theorem mem_aupdate {β : Type} {l : List (String × β)} {k : String} {v : β} :
    ∀ kv ∈ aupdate l k v, kv = (k, v) ∨ kv ∈ l := by
  induction l with
  | nil => simp [aupdate]
  | cons hd tl ih =>
      obtain ⟨k', v'⟩ := hd
      intro kv hkv
      by_cases hk : k' = k
      · simp only [aupdate, if_pos hk] at hkv
        rcases List.mem_cons.mp hkv with rfl | hkv
        · exact Or.inl rfl
        · exact Or.inr (List.mem_cons.mpr (Or.inr hkv))
      · simp only [aupdate, if_neg hk] at hkv
        rcases List.mem_cons.mp hkv with rfl | hkv
        · exact Or.inr (List.mem_cons.mpr (Or.inl rfl))
        · rcases ih kv hkv with h | h
          · exact Or.inl h
          · exact Or.inr (List.mem_cons.mpr (Or.inr h))

theorem backup1_children (n : NodeT) (r : ℚ) : (backup1 n r).children = n.children := rfl

/-- Backing up one node and replacing the descended child preserves the
path-level backup relation. -/
theorem descend_pathOk (node : NodeT) (a : String) (ch ch' : NodeT) (r : ℚ)
    (hlk : alookup node.children a = some ch) (hok : PathOk ch ch' r) :
    PathOk node (backup1 { node with children := aupdate node.children a ch' } r) r := by
  constructor
  · intro p m hm
    cases p with
    | nil =>
        simp only [getPath_nil, Option.some_inj] at hm
        subst hm
        refine ⟨_, rfl, Or.inr ?_⟩
        simp [backup1]
    | cons b p' =>
        rw [getPath_cons] at hm
        cases hb : alookup node.children b with
        | none => rw [hb] at hm; exact absurd hm (by simp)
        | some cb =>
            rw [hb] at hm
            by_cases hba : b = a
            · subst hba
              rw [hlk] at hb
              obtain rfl : ch = cb := by injection hb
              rcases hok.1 p' m hm with ⟨m', hm', hrel⟩
              refine ⟨m', ?_, hrel⟩
              rw [getPath_cons, backup1_children]
              simp only [alookup_aupdate_self]
              exact hm'
            · refine ⟨m, ?_, Or.inl rfl⟩
              rw [getPath_cons, backup1_children, alookup_aupdate_ne _ _ _ _ hba, hb]
              exact hm
  · intro p m' hnone hsome
    cases p with
    | nil => exact absurd hnone (by simp)
    | cons b p' =>
        rw [getPath_cons, backup1_children] at hsome
        rw [getPath_cons] at hnone
        by_cases hba : b = a
        · subst hba
          rw [alookup_aupdate_self] at hsome
          rw [hlk] at hnone
          exact hok.2 p' m' hnone hsome
        · rw [alookup_aupdate_ne _ _ _ _ hba] at hsome
          cases hb : alookup node.children b with
          | none => rw [hb] at hsome; exact absurd hsome (by simp)
          | some cb =>
              rw [hb] at hsome hnone
              rw [hnone] at hsome
              exact absurd hsome (by simp)

/-- Expanding a childless node with one fresh zero-statistics child and
backing up the parent realises the backup relation. -/
theorem expandNode_pathOk (n : NodeT) (a0 : String) (ch : NodeT) (r : ℚ)
    (hch : n.children = []) (hc2 : ch.children = []) (hcN : ch.N = 0)
    (hcW : ch.W = 0) (hcQ : ch.Q = 0) :
    PathOk n (backup1 { n with children := aupdate [] a0 ch } r) r := by
  constructor
  · intro p m hm
    cases p with
    | nil =>
        simp only [getPath_nil, Option.some_inj] at hm
        subst hm
        refine ⟨_, rfl, Or.inr ?_⟩
        simp [backup1]
    | cons b p' =>
        have hno : getPath n (b :: p') = none := by
          rw [getPath_cons, hch]
          rfl
        rw [hno] at hm
        exact absurd hm (by simp)
  · intro p m' hnone hsome
    cases p with
    | nil => exact absurd hnone (by simp)
    | cons b p' =>
        by_cases hb : a0 = b
        · have hstep :
              getPath (backup1 { n with children := aupdate [] a0 ch } r) (b :: p')
                = getPath ch p' := by
            rw [getPath_cons, backup1_children]
            simp [aupdate, alookup, hb]
          rw [hstep] at hsome
          cases p' with
          | nil =>
              simp only [getPath_nil, Option.some_inj] at hsome
              subst hsome
              exact ⟨hcN, hcW, hcQ, hc2⟩
          | cons b' p'' =>
              have hno2 : getPath ch (b' :: p'') = none := by
                rw [getPath_cons, hc2]
                rfl
              rw [hno2] at hsome
              exact absurd hsome (by simp)
        · have hstep :
              getPath (backup1 { n with children := aupdate [] a0 ch } r) (b :: p')
                = none := by
            rw [getPath_cons, backup1_children]
            simp [aupdate, alookup, hb]
          rw [hstep] at hsome
          exact absurd hsome (by simp)

/-- `finishAt` realises the backup relation between the stop node and its
updated version. -/
theorem finishAt_pathOk (cfg : MCTSCfg) (n : NodeT) :
    PathOk n (finishAt cfg n).1 (finishAt cfg n).2 := by
  unfold finishAt
  cases hch : n.children with
  | cons kv rest => exact pathOk_refl n _
  | nil =>
      simp only [List.isEmpty_nil, if_true]
      cases hacts : n.state.legal_actions with
      | nil => exact pathOk_refl n _
      | cons a0 arest =>
          exact expandNode_pathOk n a0 _ _ hch rfl rfl rfl rfl

theorem finishAt_keysOk (cfg : MCTSCfg) (n : NodeT) (hk : KeysOk n) :
    KeysOk (finishAt cfg n).1 := by
  unfold finishAt
  cases hch : n.children with
  | cons kv rest => exact hk
  | nil =>
      simp only [List.isEmpty_nil, if_true]
      cases hacts : n.state.legal_actions with
      | nil => exact hk
      | cons a0 arest =>
          refine KeysOk.mk _ ?_ ?_
          · rw [backup1_children]
            simp [aupdate]
          · rw [backup1_children]
            intro kv hkv
            simp only [hch] at hkv
            simp only [aupdate, List.mem_singleton] at hkv
            subst hkv
            exact KeysOk.mk _ (by simp) (by simp)

theorem finishAt_children (cfg : MCTSCfg) (n : NodeT) (a0 : String)
    (arest : List String) (hch : n.children = [])
    (hacts : n.state.legal_actions = a0 :: arest) :
    (finishAt cfg n).1.children =
      [(a0,
        { state := n.state.apply a0,
          prior := (alookup (mctsPriors cfg n.state (a0 :: arest)) a0).getD
            (1 / (max 1 (a0 :: arest).length : ℕ)),
          N := 0, W := 0, Q := 0, children := [] })] := by
  unfold finishAt
  rw [hch, hacts]
  rfl

theorem finishAt_expand_incr (cfg : MCTSCfg) (n : NodeT) (a0 : String)
    (arest : List String) (hch : n.children = [])
    (hacts : n.state.legal_actions = a0 :: arest) :
    (finishAt cfg n).1.N = n.N + 1 ∧ (finishAt cfg n).1.W = n.W + (finishAt cfg n).2 := by
  unfold finishAt
  rw [hch, hacts]
  simp [backup1]

/-- The per-simulation backup relation: proved by induction on the fuel,
mirroring the selection descent of `MCTS.run`. -/
theorem simulateF_pathOk (cfg : MCTSCfg) :
    ∀ (fuel : ℕ) (node n' : NodeT) (r : ℚ), KeysOk node →
      simulateF cfg fuel node = some (n', r) → PathOk node n' r := by
  intro fuel
  induction fuel with
  | zero => intro node n' r _ hsim; simp [simulateF] at hsim
  | succ fuel ih =>
      intro node n' r hk hsim
      rw [simulateF] at hsim
      cases hacts : node.state.legal_actions with
      | nil =>
          rw [hacts] at hsim
          simp only [Option.some_inj] at hsim
          obtain ⟨rfl, rfl⟩ := Prod.mk.inj hsim
          exact pathOk_refl _ _
      | cons a0 arest =>
          rw [hacts] at hsim
          cases hch : node.children with
          | nil =>
              simp only [hch, List.isEmpty_nil, if_true, Option.some_inj] at hsim
              have h1 : (finishAt cfg node).1 = n' := by rw [hsim]
              have h2 : (finishAt cfg node).2 = r := by rw [hsim]
              rw [← h1, ← h2]
              exact finishAt_pathOk cfg node
          | cons kv rest =>
              simp only [hch, List.isEmpty_cons, Bool.false_eq_true, if_false] at hsim
              rw [← hch] at hsim
              cases hsel : selectChild cfg node.children with
              | none => rw [hsel] at hsim; simp at hsim
              | some pr =>
                  obtain ⟨a, ch⟩ := pr
                  rw [hsel] at hsim
                  dsimp only at hsim
                  have hmem := selectChild_mem cfg node.children a ch hsel
                  have hnodup : (node.children.map Prod.fst).Nodup := by
                    cases hk with | mk _ h1 _ => exact h1
                  have hlk : alookup node.children a = some ch :=
                    alookup_of_mem_nodup hmem hnodup
                  have hkch : KeysOk ch := by
                    cases hk with | mk _ _ h2 => exact h2 (a, ch) hmem
                  by_cases hbr : (a == "END" || ch.children.isEmpty) = true
                  · rw [if_pos hbr] at hsim
                    simp only [Option.some_inj] at hsim
                    obtain ⟨rfl, rfl⟩ := Prod.mk.inj hsim
                    exact descend_pathOk node a ch _ _ hlk (finishAt_pathOk cfg ch)
                  · rw [if_neg hbr] at hsim
                    cases hrec : simulateF cfg fuel ch with
                    | none => rw [hrec] at hsim; simp at hsim
                    | some pr' =>
                        obtain ⟨ch', r'⟩ := pr'
                        rw [hrec] at hsim
                        simp only [Option.some_inj] at hsim
                        obtain ⟨rfl, rfl⟩ := Prod.mk.inj hsim
                        exact descend_pathOk node a ch ch' r' hlk
                          (ih ch ch' r' hkch hrec)

theorem simulateF_keysOk (cfg : MCTSCfg) :
    ∀ (fuel : ℕ) (node n' : NodeT) (r : ℚ), KeysOk node →
      simulateF cfg fuel node = some (n', r) → KeysOk n' := by
  intro fuel
  induction fuel with
  | zero => intro node n' r _ hsim; simp [simulateF] at hsim
  | succ fuel ih =>
      intro node n' r hk hsim
      rw [simulateF] at hsim
      cases hacts : node.state.legal_actions with
      | nil =>
          rw [hacts] at hsim
          simp only [Option.some_inj] at hsim
          obtain ⟨rfl, rfl⟩ := Prod.mk.inj hsim
          exact hk
      | cons a0 arest =>
          rw [hacts] at hsim
          cases hch : node.children with
          | nil =>
              simp only [hch, List.isEmpty_nil, if_true, Option.some_inj] at hsim
              have h1 : (finishAt cfg node).1 = n' := by rw [hsim]
              rw [← h1]
              exact finishAt_keysOk cfg node hk
          | cons kv rest =>
              simp only [hch, List.isEmpty_cons, Bool.false_eq_true, if_false] at hsim
              rw [← hch] at hsim
              cases hsel : selectChild cfg node.children with
              | none => rw [hsel] at hsim; simp at hsim
              | some pr =>
                  obtain ⟨a, ch⟩ := pr
                  rw [hsel] at hsim
                  dsimp only at hsim
                  have hmem := selectChild_mem cfg node.children a ch hsel
                  have hnodup : (node.children.map Prod.fst).Nodup := by
                    cases hk with | mk _ h1 _ => exact h1
                  have hlk : alookup node.children a = some ch :=
                    alookup_of_mem_nodup hmem hnodup
                  have hkch : KeysOk ch := by
                    cases hk with | mk _ _ h2 => exact h2 (a, ch) hmem
                  have hupd : ∀ (ch'' : NodeT) (rr : ℚ), KeysOk ch'' →
                      KeysOk (backup1
                        { node with children := aupdate node.children a ch'' } rr) := by
                    intro ch'' rr hk''
                    refine KeysOk.mk _ ?_ ?_
                    · rw [backup1_children]
                      rw [aupdate_keys_of_mem _ _ _ (by rw [hlk]; rfl)]
                      exact hnodup
                    · rw [backup1_children]
                      intro kv2 hkv2
                      rcases mem_aupdate kv2 hkv2 with rfl | hkv2
                      · exact hk''
                      · cases hk with | mk _ _ h2 => exact h2 kv2 hkv2
                  by_cases hbr : (a == "END" || ch.children.isEmpty) = true
                  · rw [if_pos hbr] at hsim
                    simp only [Option.some_inj] at hsim
                    obtain ⟨rfl, rfl⟩ := Prod.mk.inj hsim
                    exact hupd _ _ (finishAt_keysOk cfg ch hkch)
                  · rw [if_neg hbr] at hsim
                    cases hrec : simulateF cfg fuel ch with
                    | none => rw [hrec] at hsim; simp at hsim
                    | some pr' =>
                        obtain ⟨ch', r'⟩ := pr'
                        rw [hrec] at hsim
                        simp only [Option.some_inj] at hsim
                        obtain ⟨rfl, rfl⟩ := Prod.mk.inj hsim
                        exact hupd _ _ (ih ch ch' r' hkch hrec)

theorem runSims_mono (cfg : MCTSCfg) (fuel : ℕ) :
    ∀ (k : ℕ) (root root' : NodeT), KeysOk root →
      runSims cfg fuel k root = some root' →
      KeysOk root' ∧
      ∀ p m, getPath root p = some m →
        ∃ m', getPath root' p = some m' ∧ m.N ≤ m'.N := by
  intro k
  induction k with
  | zero =>
      intro root root' hk h
      simp only [runSims, Option.some_inj] at h
      subst h
      exact ⟨hk, fun p m hm => ⟨m, hm, le_refl _⟩⟩
  | succ k ih =>
      intro root root' hk h
      rw [runSims] at h
      cases hsim : simulateF cfg fuel root with
      | none => rw [hsim] at h; simp at h
      | some pr =>
          obtain ⟨r1, rew⟩ := pr
          rw [hsim] at h
          have hpath := simulateF_pathOk cfg fuel root r1 rew hk hsim
          have hkeys := simulateF_keysOk cfg fuel root r1 rew hk hsim
          rcases ih r1 root' hkeys h with ⟨hk', hmono⟩
          refine ⟨hk', ?_⟩
          intro p m hm
          rcases hpath.1 p m hm with ⟨m1, hm1, hrel⟩
          rcases hmono p m1 hm1 with ⟨m', hm', hle⟩
          refine ⟨m', hm', le_trans ?_ hle⟩
          rcases hrel with rfl | ⟨hN, -, -⟩
          · exact le_refl _
          · omega

/-! ## Transposition-table lemmas -/

theorem lookupKey_updateKey_self (t : List ((String × List Edge) × NodeT))
    (k : String × List Edge) (v : NodeT) : lookupKey (updateKey t k v) k = some v := by
  induction t with
  | nil => simp [updateKey, lookupKey]
  | cons hd tl ih =>
      obtain ⟨k', v'⟩ := hd
      by_cases h : k' = k
      · simp [updateKey, lookupKey, h]
      · simp [updateKey, lookupKey, h, ih]

theorem lookupKey_updateKey_ne (t : List ((String × List Edge) × NodeT))
    (k k2 : String × List Edge) (v : NodeT) (hne : k2 ≠ k) :
    lookupKey (updateKey t k v) k2 = lookupKey t k2 := by
  have hk : k ≠ k2 := Ne.symm hne
  induction t with
  | nil => simp [updateKey, lookupKey, hk]
  | cons hd tl ih =>
      obtain ⟨k', v'⟩ := hd
      by_cases h : k' = k
      · subst h
        simp [updateKey, lookupKey, hk]
      · by_cases h2 : k' = k2
        · simp [updateKey, lookupKey, h, h2, hne]
        · simp [updateKey, lookupKey, h, h2, ih]

theorem lookupKey_mem (t : List ((String × List Edge) × NodeT))
    (k : String × List Edge) (v : NodeT) (h : lookupKey t k = some v) : (k, v) ∈ t := by
  induction t with
  | nil => simp [lookupKey] at h
  | cons hd tl ih =>
      obtain ⟨k', v'⟩ := hd
      by_cases hk : k' = k
      · subst hk
        rw [show lookupKey ((k', v') :: tl) k' = some v' from by simp [lookupKey]] at h
        obtain rfl := Option.some_inj.mp h
        simp
      · simp only [lookupKey, if_neg hk] at h
        exact List.mem_cons.mpr (Or.inr (ih h))

/-! ## C1: what the backup phase actually updates -/

/-- **C1** (corrected, amended).  In every simulation the scalar reward is
propagated to the nodes on the selection path from the expanded node's
*parent* back to the root inclusive: every node present before the simulation
is afterwards either untouched or incremented by exactly one visit and the
reward with `Q` recomputed as `W/N`; the freshly created (expanded) node
itself receives no backup and keeps `N = 0`, `W = 0`, `Q = 0`.  Moreover, when
the root itself is the expansion point (no children, some legal action), the
root is incremented. -/
theorem C1_backup_excludes_expanded (cfg : MCTSCfg) (fuel : ℕ) (node n' : NodeT)
    (r : ℚ) (hk : KeysOk node) (hsim : simulateF cfg fuel node = some (n', r)) :
    PathOk node n' r ∧
    (node.children = [] → ∀ a0 arest, node.state.legal_actions = a0 :: arest →
      n'.N = node.N + 1 ∧ n'.W = node.W + r) := by
  refine ⟨simulateF_pathOk cfg fuel node n' r hk hsim, ?_⟩
  intro hch a0 arest hacts
  cases fuel with
  | zero => simp [simulateF] at hsim
  | succ fuel =>
      rw [simulateF, hacts] at hsim
      simp only [hch, List.isEmpty_nil, if_true, Option.some_inj] at hsim
      have h1 : (finishAt cfg node).1 = n' := by rw [hsim]
      have h2 : (finishAt cfg node).2 = r := by rw [hsim]
      have := finishAt_expand_incr cfg node a0 arest hch hacts
      rw [h1, h2] at this
      exact this

/-! ## C2: expansion creates exactly one child, outside the table -/

/-- **C2** (corrected, amended).  When expansion reaches a node with no
children and a non-empty legal-action list, the engine creates exactly one
child — for the first action in enumeration order — carrying the applied
state, the prior looked up in the priors mapping (default `1/len(actions)`),
and zero statistics; no sibling children are created (the `for` loop breaks
after its first iteration), and the new node is not inserted into the
transposition table: a whole `run` changes the table at most at the root
state's own key. -/
theorem C2_single_child_expansion (cfg : MCTSCfg) (fuel : ℕ) (node n' : NodeT)
    (r : ℚ) (a0 : String) (arest : List String) (hch : node.children = [])
    (hacts : node.state.legal_actions = a0 :: arest)
    (hsim : simulateF cfg (fuel + 1) node = some (n', r)) :
    (n'.children.length = 1 ∧
      ∃ c, n'.children = [(a0, c)] ∧ c.state = node.state.apply a0 ∧
        c.N = 0 ∧ c.W = 0 ∧ c.Q = 0 ∧ c.children = [] ∧
        c.prior = (alookup (mctsPriors cfg node.state (a0 :: arest)) a0).getD
          (1 / (max 1 (a0 :: arest).length : ℕ))) ∧
    (∀ (table : List ((String × List Edge) × NodeT)) (s : EulerState) (r' : NodeT)
        (t' : List ((String × List Edge) × NodeT)),
      MCTSrun cfg fuel table s = some (r', t') →
      ∀ k, k ≠ s.hash_key → lookupKey t' k = lookupKey table k) := by
  constructor
  · rw [simulateF, hacts] at hsim
    simp only [hch, List.isEmpty_nil, if_true, Option.some_inj] at hsim
    have h1 : (finishAt cfg node).1 = n' := by rw [hsim]
    have hc := finishAt_children cfg node a0 arest hch hacts
    rw [h1] at hc
    rw [hc]
    exact ⟨rfl, _, rfl, rfl, rfl, rfl, rfl, rfl, rfl⟩
  · intro table s r' t' hrun k hkne
    unfold MCTSrun at hrun
    cases hrs : runSims cfg fuel cfg.num_simulations
        (match lookupKey table s.hash_key with
          | some n => n
          | none => { state := s, prior := 1, N := 0, W := 0, Q := 0, children := [] }) with
    | none => rw [hrs] at hrun; simp at hrun
    | some root' =>
        rw [hrs] at hrun
        simp only [Option.some_inj] at hrun
        obtain ⟨rfl, rfl⟩ := Prod.mk.inj hrun
        exact lookupKey_updateKey_ne table s.hash_key k root' hkne

/-! ## C8: transposition-table reuse by `run` -/

/-- **C8** (confirmed).  `MCTS.run` keys the transposition table by the
state's canonical key (current pin plus the sorted tuple of visited edges,
`hash_key`): when the key is present the stored node becomes the root with its
statistics kept, when absent a fresh root with prior `1.0` is created, and
after the run the (possibly new) root sits in the table under that key;
consequently a second `run` from the same state starts from the first run's
root, and no node's visit count — in particular no child's — ever
decreases between the two runs. -/
theorem C8_run_reuses_table (cfg : MCTSCfg) (fuel : ℕ)
    (table : List ((String × List Edge) × NodeT)) (s : EulerState)
    (r1 : NodeT) (t1 : List ((String × List Edge) × NodeT))
    (r2 : NodeT) (t2 : List ((String × List Edge) × NodeT))
    (htab : ∀ kv ∈ table, KeysOk kv.2)
    (h1 : MCTSrun cfg fuel table s = some (r1, t1))
    (h2 : MCTSrun cfg fuel t1 s = some (r2, t2)) :
    (lookupKey table s.hash_key = none →
      runSims cfg fuel cfg.num_simulations
        { state := s, prior := 1, N := 0, W := 0, Q := 0, children := [] } = some r1) ∧
    (∀ n, lookupKey table s.hash_key = some n →
      runSims cfg fuel cfg.num_simulations n = some r1) ∧
    t1 = updateKey table s.hash_key r1 ∧
    lookupKey t1 s.hash_key = some r1 ∧
    (∀ p m, getPath r1 p = some m → ∃ m', getPath r2 p = some m' ∧ m.N ≤ m'.N) := by
  have hroot0 : KeysOk (match lookupKey table s.hash_key with
      | some n => n
      | none => { state := s, prior := 1, N := 0, W := 0, Q := 0, children := [] }) := by
    cases hlk : lookupKey table s.hash_key with
    | none => exact KeysOk.mk _ (by simp) (by simp)
    | some n => exact htab _ (lookupKey_mem table s.hash_key n hlk)
  unfold MCTSrun at h1
  cases hrs : runSims cfg fuel cfg.num_simulations
      (match lookupKey table s.hash_key with
        | some n => n
        | none => { state := s, prior := 1, N := 0, W := 0, Q := 0, children := [] }) with
  | none => rw [hrs] at h1; simp at h1
  | some root' =>
      rw [hrs] at h1
      simp only [Option.some_inj] at h1
      obtain ⟨rfl, rfl⟩ := Prod.mk.inj h1
      have hkeys1 : KeysOk root' := (runSims_mono cfg fuel _ _ _ hroot0 hrs).1
      have hself : lookupKey (updateKey table s.hash_key root') s.hash_key = some root' :=
        lookupKey_updateKey_self table s.hash_key root'
      refine ⟨?_, ?_, rfl, hself, ?_⟩
      · intro hnone
        rw [hnone] at hrs
        exact hrs
      · intro n hsome
        rw [hsome] at hrs
        exact hrs
      · unfold MCTSrun at h2
        rw [hself] at h2
        cases hrs2 : runSims cfg fuel cfg.num_simulations root' with
        | none => rw [hrs2] at h2; simp at h2
        | some root2 =>
            rw [hrs2] at h2
            simp only [Option.some_inj] at h2
            obtain ⟨rfl, rfl⟩ := Prod.mk.inj h2
            exact (runSims_mono cfg fuel _ _ _ hkeys1 hrs2).2

/-! ## C3: the completion predicate and the undirected edge count -/

theorem char_eq_of_toNat_eq {c d : Char} (h : c.toNat = d.toNat) : c = d :=
  Char.ext (UInt32.ext h)

theorem string_eq_of_data_eq {a b : String} (h : a.data = b.data) : a = b := by
  cases a
  cases b
  exact congrArg String.mk h

theorem charListLt_asymm : ∀ (a b : List Char),
    charListLt a b = true → charListLt b a = false := by
  intro a
  induction a with
  | nil =>
      intro b h
      cases b with
      | nil => simp [charListLt] at h
      | cons d ds => simp [charListLt]
  | cons c cs ih =>
      intro b h
      cases b with
      | nil => simp [charListLt] at h
      | cons d ds =>
          unfold charListLt at h ⊢
          by_cases h1 : c.toNat < d.toNat
          · rw [if_neg (by omega), if_pos h1]
          · rw [if_neg h1] at h
            by_cases h2 : d.toNat < c.toNat
            · rw [if_pos h2] at h
              exact absurd h (by simp)
            · rw [if_neg h2] at h
              rw [if_neg h2, if_neg h1]
              exact ih ds h

theorem charListLt_eq_of_both_false : ∀ (a b : List Char),
    charListLt a b = false → charListLt b a = false → a = b := by
  intro a
  induction a with
  | nil =>
      intro b h1 _
      cases b with
      | nil => rfl
      | cons d ds => simp [charListLt] at h1
  | cons c cs ih =>
      intro b h1 h2
      cases b with
      | nil => simp [charListLt] at h2
      | cons d ds =>
          unfold charListLt at h1 h2
          by_cases hcd : c.toNat < d.toNat
          · rw [if_pos hcd] at h1
            exact absurd h1 (by simp)
          · by_cases hdc : d.toNat < c.toNat
            · rw [if_pos hdc] at h2
              exact absurd h2 (by simp)
            · rw [if_neg hcd, if_neg hdc] at h1
              rw [if_neg hdc, if_neg hcd] at h2
              have hc : c = d := char_eq_of_toNat_eq (by omega)
              rw [hc, ih ds h1 h2]

theorem pyStrLe_total {a b : String} (h : pyStrLe a b = false) : pyStrLe b a = true := by
  unfold pyStrLe at h ⊢
  simp only [Bool.not_eq_false'] at h
  rw [pyStrLt] at h ⊢
  rw [charListLt_asymm _ _ h]
  rfl

theorem pyStrLe_antisymm {a b : String} (h1 : pyStrLe a b = true)
    (h2 : pyStrLe b a = true) : a = b := by
  unfold pyStrLe pyStrLt at h1 h2
  simp only [Bool.not_eq_true'] at h1 h2
  exact string_eq_of_data_eq (charListLt_eq_of_both_false _ _ h2 h1)

theorem normEdge_comm (a b : String) : normEdge a b = normEdge b a := by
  unfold normEdge
  by_cases h1 : pyStrLe a b = true
  · by_cases h2 : pyStrLe b a = true
    · obtain rfl := pyStrLe_antisymm h1 h2
      rfl
    · rw [if_pos h1, if_neg (by simpa using h2)]
  · rw [if_neg (by simpa using h1), if_pos (pyStrLe_total (by simpa using h1))]

theorem normEdge_cases {c d x y : String} (h : normEdge c d = (x, y)) :
    (c = x ∧ d = y) ∨ (c = y ∧ d = x) := by
  unfold normEdge at h
  split at h
  · obtain ⟨rfl, rfl⟩ := Prod.mk.inj h
    exact Or.inl ⟨rfl, rfl⟩
  · obtain ⟨rfl, rfl⟩ := Prod.mk.inj h
    exact Or.inr ⟨rfl, rfl⟩

theorem normEdge_of_le {x y : String} (h : pyStrLe x y = true) :
    normEdge x y = (x, y) := by
  unfold normEdge
  rw [if_pos h]

theorem normEdge_swap_of_le {x y : String} (hxy : pyStrLe x y = true) (hne : x ≠ y) :
    normEdge y x = (x, y) := by
  unfold normEdge
  rw [if_neg ?_]
  intro hyx
  exact hne (pyStrLe_antisymm hxy hyx)

theorem alookup_mem {β : Type} {l : List (String × β)} {k : String} {v : β}
    (h : alookup l k = some v) : (k, v) ∈ l := by
  induction l with
  | nil => simp [alookup] at h
  | cons hd tl ih =>
      obtain ⟨k', v'⟩ := hd
      by_cases hk : k' = k
      · subst hk
        rw [show alookup ((k', v') :: tl) k' = some v' from by simp [alookup]] at h
        obtain rfl := Option.some_inj.mp h
        simp
      · simp only [alookup, if_neg hk] at h
        exact List.mem_cons.mpr (Or.inr (ih h))

theorem adjPairs_cons (kv : String × List String) (tl : List (String × List String)) :
    adjPairs (kv :: tl) = kv.2.map (fun b => (kv.1, b)) ++ adjPairs tl := by
  simp [adjPairs]

theorem length_adjPairs : ∀ (adj : List (String × List String)) (acc : ℕ),
    adj.foldl (fun acc kv => acc + kv.2.length) acc = acc + (adjPairs adj).length := by
  intro adj
  induction adj with
  | nil => intro acc; simp [adjPairs]
  | cons kv tl ih =>
      intro acc
      rw [List.foldl_cons, ih, adjPairs_cons]
      simp
      omega

theorem mem_adjPairs_fst {adj : List (String × List String)} {x y : String}
    (h : (x, y) ∈ adjPairs adj) : x ∈ adj.map Prod.fst := by
  induction adj with
  | nil => simp [adjPairs] at h
  | cons kv tl ih =>
      rw [adjPairs_cons] at h
      rcases List.mem_append.mp h with h | h
      · rcases List.mem_map.mp h with ⟨b, -, hb⟩
        obtain ⟨rfl, rfl⟩ := Prod.mk.inj hb.symm
        simp
      · exact List.mem_cons.mpr (Or.inr (ih h))

theorem mem_adjPairs_iff {adj : List (String × List String)}
    (hkeys : (adj.map Prod.fst).Nodup) (x y : String) :
    (x, y) ∈ adjPairs adj ↔ y ∈ adjGetD adj x := by
  induction adj with
  | nil => simp [adjPairs, adjGetD, alookup]
  | cons kv tl ih =>
      obtain ⟨k, l⟩ := kv
      rw [List.map_cons] at hkeys
      rcases List.nodup_cons.mp hkeys with ⟨hnotin, hnd⟩
      rw [adjPairs_cons]
      by_cases hk : k = x
      · subst hk
        constructor
        · intro h
          rcases List.mem_append.mp h with h | h
          · rcases List.mem_map.mp h with ⟨b, hb, hbeq⟩
            obtain ⟨-, rfl⟩ := Prod.mk.inj hbeq
            simpa [adjGetD, alookup] using hb
          · exact absurd (mem_adjPairs_fst h) hnotin
        · intro h
          refine List.mem_append.mpr (Or.inl ?_)
          refine List.mem_map.mpr ⟨y, ?_, rfl⟩
          simpa [adjGetD, alookup] using h
      · have hget : adjGetD ((k, l) :: tl) x = adjGetD tl x := by
          simp [adjGetD, alookup, hk]
        rw [hget, ← ih hnd]
        constructor
        · intro h
          rcases List.mem_append.mp h with h | h
          · rcases List.mem_map.mp h with ⟨b, -, hbeq⟩
            obtain ⟨hkx, -⟩ := Prod.mk.inj hbeq
            exact absurd hkx hk
          · exact h
        · intro h
          exact List.mem_append.mpr (Or.inr h)

theorem nodup_adjPairs {adj : List (String × List String)}
    (hkeys : (adj.map Prod.fst).Nodup) (hlists : ∀ kv ∈ adj, kv.2.Nodup) :
    (adjPairs adj).Nodup := by
  induction adj with
  | nil => simp [adjPairs]
  | cons kv tl ih =>
      obtain ⟨k, l⟩ := kv
      rw [List.map_cons] at hkeys
      rcases List.nodup_cons.mp hkeys with ⟨hnotin, hnd⟩
      rw [adjPairs_cons]
      rw [List.nodup_append]
      refine ⟨?_, ih hnd (fun kv2 h2 => hlists kv2 (List.mem_cons.mpr (Or.inr h2))), ?_⟩
      · exact (hlists (k, l) (by simp)).map (fun b1 b2 hb => by
          simpa using congrArg Prod.snd hb)
      · intro p hp hp'
        rcases List.mem_map.mp hp with ⟨b, -, hbeq⟩
        subst hbeq
        exact hnotin (mem_adjPairs_fst hp')

theorem adjPairs_symm {adj : List (String × List String)}
    (hkeys : (adj.map Prod.fst).Nodup)
    (hsym : ∀ kv ∈ adj, ∀ b ∈ kv.2, kv.1 ∈ adjGetD adj b)
    {x y : String} (h : (x, y) ∈ adjPairs adj) : (y, x) ∈ adjPairs adj := by
  rw [mem_adjPairs_iff hkeys] at h
  rw [mem_adjPairs_iff hkeys]
  unfold adjGetD at h
  cases hlk : alookup adj x with
  | none =>
      rw [hlk] at h
      simp at h
  | some l =>
      rw [hlk] at h
      simp only [Option.getD_some] at h
      exact hsym (x, l) (alookup_mem hlk) y h

theorem adjPairs_noloop {adj : List (String × List String)}
    (hloop : ∀ kv ∈ adj, kv.1 ∉ kv.2)
    {x y : String} (h : (x, y) ∈ adjPairs adj) : x ≠ y := by
  induction adj with
  | nil => simp [adjPairs] at h
  | cons kv tl ih =>
      rw [adjPairs_cons] at h
      rcases List.mem_append.mp h with h | h
      · rcases List.mem_map.mp h with ⟨b, hb, hbeq⟩
        obtain ⟨rfl, rfl⟩ := Prod.mk.inj hbeq.symm
        rintro rfl
        exact hloop kv (by simp) hb
      · exact ih (fun kv2 h2 => hloop kv2 (List.mem_cons.mpr (Or.inr h2))) h

theorem list_toFinset_map {α β : Type} [DecidableEq α] [DecidableEq β]
    (f : α → β) (l : List α) : (l.map f).toFinset = l.toFinset.image f := by
  induction l with
  | nil => simp
  | cons a tl ih => simp [ih]

/-- Under the adjacency invariants, the number of directed neighbour pairs is
exactly twice the number of distinct canonical (undirected) edges. -/
theorem adjPairs_length_eq_twice_specEdgeCount (adj : List (String × List String))
    (hwf : AdjWF adj) :
    (adjPairs adj).length = 2 * specEdgeCount adj := by
  obtain ⟨hkeys, hlists, hsym, hloop⟩ := hwf
  have hnodup := nodup_adjPairs hkeys hlists
  rw [← List.toFinset_card_of_nodup hnodup]
  unfold specEdgeCount
  rw [list_toFinset_map]
  set T := (adjPairs adj).toFinset with hT
  set φ : Edge → Edge := fun p => normEdge p.1 p.2 with hφ
  rw [Finset.card_eq_sum_card_image φ T]
  have hfiber : ∀ e ∈ T.image φ, (T.filter fun p => φ p = e).card = 2 := by
    intro e he
    rcases Finset.mem_image.mp he with ⟨⟨a, b⟩, haT, hab⟩
    have habP : (a, b) ∈ adjPairs adj := by
      rw [hT] at haT
      exact List.mem_toFinset.mp haT
    have hbaP : (b, a) ∈ adjPairs adj := adjPairs_symm hkeys hsym habP
    have hne : a ≠ b := adjPairs_noloop hloop habP
    obtain ⟨x, y⟩ := e
    have hcases := normEdge_cases (show normEdge a b = (x, y) from hab)
    have hkey : (T.filter fun p => φ p = (x, y)) = {(x, y), (y, x)} ∧ x ≠ y := by
      rcases hcases with ⟨rfl, rfl⟩ | ⟨rfl, rfl⟩
      · refine ⟨?_, hne⟩
        ext ⟨c, d⟩
        simp only [Finset.mem_filter, Finset.mem_insert, Finset.mem_singleton]
        constructor
        · rintro ⟨-, hcd⟩
          rcases normEdge_cases hcd with ⟨rfl, rfl⟩ | ⟨rfl, rfl⟩
          · exact Or.inl rfl
          · exact Or.inr rfl
        · rintro (h | h)
          · obtain ⟨rfl, rfl⟩ := Prod.mk.inj h
            exact ⟨haT, hab⟩
          · obtain ⟨rfl, rfl⟩ := Prod.mk.inj h
            refine ⟨by rw [hT]; exact List.mem_toFinset.mpr hbaP, ?_⟩
            rw [hφ]
            exact (normEdge_comm _ _).trans hab
      · refine ⟨?_, hne.symm⟩
        ext ⟨c, d⟩
        simp only [Finset.mem_filter, Finset.mem_insert, Finset.mem_singleton]
        constructor
        · rintro ⟨-, hcd⟩
          rcases normEdge_cases hcd with ⟨rfl, rfl⟩ | ⟨rfl, rfl⟩
          · exact Or.inl rfl
          · exact Or.inr rfl
        · rintro (h | h)
          · obtain ⟨rfl, rfl⟩ := Prod.mk.inj h
            refine ⟨by rw [hT]; exact List.mem_toFinset.mpr hbaP, ?_⟩
            rw [hφ]
            exact (normEdge_comm _ _).trans hab
          · obtain ⟨rfl, rfl⟩ := Prod.mk.inj h
            exact ⟨haT, hab⟩
    rw [hkey.1]
    rw [Finset.card_insert_of_not_mem (by
      simp only [Finset.mem_singleton]
      intro hcon
      exact hkey.2 (congrArg Prod.fst hcon))]
    simp
  rw [Finset.sum_congr rfl hfiber]
  rw [Finset.sum_const, smul_eq_mul]
  ring

/-- **C3** (corrected, amended).  For every state whose adjacency satisfies
the `add_edge` invariants (duplicate-free keys and neighbour lists, symmetric,
no self-loops), the completion predicate holds iff the number of visited edges
is at least the total undirected edge count of the current adjacency and that
count is positive; the current position is *not* consulted (the
`current == start` condition is checked separately by the callers), and the
count is recomputed from the adjacency at every call. -/
theorem C3_completion_predicate (s : EulerState) (hwf : AdjWF s.adjacency) :
    s.is_complete = true ↔
      (specEdgeCount s.adjacency ≤ s.visited_edges.length ∧
        0 < specEdgeCount s.adjacency) := by
  unfold EulerState.is_complete
  have hfold : s.adjacency.foldl (fun acc kv => acc + kv.2.length) 0
      = 2 * specEdgeCount s.adjacency := by
    rw [length_adjPairs s.adjacency 0,
      adjPairs_length_eq_twice_specEdgeCount s.adjacency hwf]
    omega
  rw [hfold]
  have hdiv : 2 * specEdgeCount s.adjacency / 2 = specEdgeCount s.adjacency := by
    omega
  rw [hdiv]
  simp [Bool.and_eq_true, decide_eq_true_iff]

/-- **C3 counterexample.**  A state with one undirected adjacency edge, two
visited edges (one of them foreign to the adjacency), and a current pin
different from the start pin: the code's `is_complete` returns `true` even
though the visited count (2) differs from the undirected edge count (1) and
the position is not back at the start — refuting both the equality and the
`current == start` clauses of the claim. -/
theorem C3_counterexample :
    EulerState.is_complete demoElsewhereState = true ∧
    demoElsewhereState.current_pin ≠ demoElsewhereState.start_pin ∧
    specEdgeCount demoElsewhereState.adjacency = 1 ∧
    demoElsewhereState.visited_edges.length = 2 := by
  exact ⟨by decide, by decide, by decide, by decide⟩

/-- **C3 witness** for the amended claim on the completed-loop state, whose
adjacency satisfies the invariants. -/
theorem C3_completion_predicate_witness :
    EulerState.is_complete demoLoopState = true ↔
      (specEdgeCount demoLoopState.adjacency ≤ demoLoopState.visited_edges.length ∧
        0 < specEdgeCount demoLoopState.adjacency) :=
  C3_completion_predicate demoLoopState (by unfold AdjWF; decide)

/-! ## Concrete counterexamples and witnesses

The kernel evaluates the model on the concrete demonstration inputs; the
`Rat` arithmetic definitions are locally unsealed (they are `irreducible` by
default) so that this evaluation can proceed.
-/

section DemoEvaluation

attribute [local semireducible] Rat.add Rat.mul Rat.inv Rat.sub

set_option maxRecDepth 200000

/-- **C1 counterexample.**  One simulation from a fresh root over a completed
one-edge loop: the root expands its `"END"` child and the rollout returns
reward `3/5`, the root is incremented to `N = 1, W = 3/5`, but the expanded
child itself keeps `N = 0, W = 0` — the reward is *not* propagated to the
expanded node, contradicting the claim that every node on the path from the
expanded node back to the root inclusive is incremented. -/
theorem C1_counterexample :
    (simulateF demoCfg 1 demoLoopRoot).map
        (fun p => (p.1.N, p.1.W, (alookup p.1.children "END").map (fun c => (c.N, c.W)), p.2))
      = some (1, 3 / 5, some (0, 0), 3 / 5) := by decide

/-- **C1 witness** for the amended claim at the same concrete input. -/
theorem C1_backup_excludes_expanded_witness :
    demoN1.N = demoLoopRoot.N + 1 ∧ demoN1.W = demoLoopRoot.W + demoR1 :=
  (C1_backup_excludes_expanded demoCfg 1 demoLoopRoot demoN1 demoR1
      (KeysOk.mk _ (by simp [demoLoopRoot]) (by simp [demoLoopRoot])) rfl).2
    rfl "END" [] rfl

/-- **C2 counterexample.**  The canonical initial state offers 18 legal
actions, yet one simulation from its fresh root creates exactly one child —
not one child per legal action, and nothing is looked up in or added to a
transposition table during expansion. -/
theorem C2_counterexample :
    demoStartState.legal_actions.length = 18 ∧
    (simulateF demoCfg 1 demoStartRoot).map (fun p => p.1.children.length) = some 1 := by
  exact ⟨by decide, by decide⟩

/-- **C2 witness** for the amended claim at the same concrete input. -/
theorem C2_single_child_expansion_witness :
    demoStartN1.children.length = 1 :=
  (C2_single_child_expansion demoCfg 0 demoStartRoot demoStartN1 demoStartR1
      (demoStartState.legal_actions.headD "") demoStartState.legal_actions.tail
      rfl rfl rfl).1.1

/-- **C4 counterexample.**  On a node with visit count 4 and children stored
in order `"B"` (pure value `Q = 3/2`), `"A"` (pure prior `P = 1`), the
engine's selection returns `"B"` (its `total_N = 1` formula scores them
equally and the first in insertion order wins), while the claimed rule —
parent-visit-count square root and lexicographic tie-break — selects `"A"`. -/
theorem C4_counterexample :
    (selectChild demoCfg demoSelNode.children).map Prod.fst = some "B" ∧
    (claimSelectChild demoCfg demoSelNode).map Prod.fst = some "A" := by
  exact ⟨by decide, by decide⟩

/-- **C4 witness** for the amended claim at the same concrete input. -/
theorem C4_selection_first_max_witness :
    ∃ l1 l2, demoSelNode.children = l1 ++ ("B", demoSelB) :: l2 ∧
      (∀ p ∈ demoSelNode.children,
        childScore demoCfg (selTotalN demoSelNode.children) p.2 ≤
          childScore demoCfg (selTotalN demoSelNode.children) demoSelB) ∧
      (∀ p ∈ l1,
        childScore demoCfg (selTotalN demoSelNode.children) p.2 <
          childScore demoCfg (selTotalN demoSelNode.children) demoSelB) :=
  C4_selection_first_max demoCfg demoSelNode.children "B" demoSelB rfl

/-- **C5 counterexample.**  With two children of equal visit count stored in
order `"B"`, `"A"`, `best_action` at temperature `0` returns `"B"` (first
maximal in insertion order) while the claimed lexicographic tie-break would
return `"A"`. -/
theorem C5_counterexample :
    bestAction demoTieNode 0 demoPow 0 = "B" ∧
    claimBestActionT0 demoTieNode = some "A" := by
  exact ⟨by decide, by decide⟩

/-- **C5 witness** for the amended claim at the same concrete input. -/
theorem C5_best_action_first_max_witness :
    ∃ c l1 l2,
      demoTieNode.children = l1 ++ (bestAction demoTieNode 0 demoPow 0, c) :: l2 ∧
      (∀ p ∈ demoTieNode.children, p.2.N ≤ c.N) ∧
      (∀ p ∈ l1, p.2.N < c.N) :=
  C5_best_action_first_max demoTieNode ("B", demoTieChild) [("A", demoTieChild)] 0
    demoPow 0 rfl (by norm_num)

/-- **C6 counterexample.**  In the completed loop state the edge to `"B"` is
already visited, so moving to `"B"` is illegal — yet `apply` records it
without any error: the action lands in the history and the current pin
moves. -/
theorem C6_counterexample :
    normEdge demoLoopState.current_pin "B" ∈ demoLoopState.visited_edges ∧
    (demoLoopState.apply "B").seq = ["B"] ∧
    (demoLoopState.apply "B").current_pin = "B" := by
  exact ⟨by decide, by decide, by decide⟩

/-- **C6 witness** for the amended claim at the same concrete input. -/
theorem C6_apply_no_validation_witness :
    (demoLoopState.apply "B").seq = demoLoopState.seq ++ ["B"] ∧
    (demoLoopState.apply "B").current_pin = "B" ∧
    normEdge demoLoopState.current_pin "B" ∈ (demoLoopState.apply "B").visited_edges :=
  C6_apply_no_validation demoLoopState "B" (by decide) (by decide)
    (Or.inl (by decide))

/-- **C10 witness**: the empty-table root has no children and the initial
state is incomplete. -/
theorem C10_best_action_end_witness :
    bestAction demoStartRoot 0 demoPow 0 = "END" ∧
    "END" ∉ demoStartState.legal_actions :=
  have h := C10_best_action_end demoStartRoot 0 demoPow 0 rfl demoStartState rfl
    (by decide)
  ⟨h.1, h.2.1⟩

/-- **C8 witness**: two successive runs from the completed loop state on an
initially empty table; the second run's root is the first run's root, and no
visit count decreases. -/
theorem C8_run_reuses_table_witness :
    lookupKey demoRun1Table demoLoopState.hash_key = some demoRun1Root ∧
    (∀ p m, getPath demoRun1Root p = some m →
      ∃ m', getPath demoRun2Root p = some m' ∧ m.N ≤ m'.N) :=
  have h := C8_run_reuses_table demoCfg 3 [] demoLoopState demoRun1Root demoRun1Table
    demoRun2Root demoRun2Table (by simp) rfl rfl
  ⟨h.2.2.2.1, h.2.2.2.2⟩

end DemoEvaluation

end TopoGenie
